import Mathlib

/-!
Shallow embedding of the `packaged_json_py` repository: the directory
packager (`directory_packager.py`), the extractor (`extractor.py`) and the
validator (`validator.py`), together with theorems settling the claims
about them.

Modelling conventions:
* File contents are byte lists (`List Nat`, each byte `< 256`); decoded text
  is a list of Unicode code points (`List Nat`).
* The filesystem seen by a scan is an inductive tree (`FSEntry`); the
  filesystem produced by extraction is a pair of maps from
  root-relative path components to contents / directory existence.
* Python text-mode I/O on a POSIX host is modelled: reading translates
  `\r\n` and lone `\r` to `\n` (universal newlines); writing `\n`
  is the identity translation (`os.linesep` is `"\n"`).
* Recursive walks over trees take an explicit recursion-depth budget
  (`fuel`); any budget at least the size of the tree yields the behaviour
  of the unbounded Python recursion (the top-level wrappers pass such a
  budget).
* Timestamps (`modified`, `generated_at`), the absolute `path` field of the
  root node and per-scan statistics counters are outside the model; none of
  the claims concerns them.
-/

/-! ### Small string and path utilities -/

/-- Lowercases a string character by character (Python `str.lower`). -/
def lowerStr (s : String) : String := ⟨s.data.map Char.toLower⟩

/-- `s.endswith(t)` on strings. -/
def strEndsWith (s t : String) : Bool := t.data.isSuffixOf s.data

/-- `s.startswith(t)` on strings. -/
def strStartsWith (s t : String) : Bool := t.data.isPrefixOf s.data

/-- Does the string contain the character? -/
def strHasChar (s : String) (c : Char) : Bool := s.data.contains c

/-- Drops the last character of a string (`s[:-1]`). -/
def dropLastChar (s : String) : String := ⟨s.data.dropLast⟩

/-- Membership of a string in a string list. -/
def strMem (s : String) (l : List String) : Bool := l.any (fun t => t.data == s.data)

/-- Index of the last `'.'` in a character list, if any. -/
def lastDotIdx : List Char → Option Nat
  | [] => none
  | c :: t =>
    match lastDotIdx t with
    | some i => some (i + 1)
    | none => if c = '.' then some 0 else none

/-- `pathlib.PurePath.suffix` of a file name: the part of the name from its
last dot on, provided that dot is neither the first nor the last
character; otherwise the empty string. -/
def suffixOf (name : String) : String :=
  match lastDotIdx name.data with
  | some i => if 0 < i ∧ i + 1 < name.data.length then ⟨name.data.drop i⟩ else ""
  | none => ""

/-- Joins path components with `/`, as `str(PurePosixPath)` does for a
relative path. -/
def joinPath : List String → String
  | [] => ""
  | [x] => x
  | x :: rest => x ++ "/" ++ joinPath rest

/-- `pathRest pfx p` strips the component list `pfx` from the front of `p`,
returning the remainder when `pfx` is a prefix of `p`. -/
def pathRest : List String → List String → Option (List String)
  | [], p => some p
  | _ :: _, [] => none
  | a :: as, b :: bs => if a = b then pathRest as bs else none

/-! ### `fnmatch`-style glob matching

`fnmatch.fnmatch` on a POSIX host: `*` matches any character sequence,
`?` any single character, `[...]` a character class (leading `!` negates;
a `]` directly after the optional `!` is literal; an unterminated `[` is a
literal `[`), and every other character matches itself.  The translated
regular expression is anchored and compiled with `DOTALL`, so `*` and `?`
also match newlines and `/`. -/

/-- One token of a translated glob pattern. -/
inductive GTok where
  | star : GTok
  | qmark : GTok
  | cclass (negated : Bool) (content : List Char) : GTok
  | lit (c : Char) : GTok
deriving DecidableEq

/-- Splits a character list at the first `]`, returning the content before
it and the remainder after it. -/
def splitOnRBracket : List Char → Option (List Char × List Char)
  | [] => none
  | ']' :: t => some ([], t)
  | c :: t => (splitOnRBracket t).map (fun p => (c :: p.1, p.2))

/-- Parses a character class after an opening `[`: an optional leading `!`,
then content up to the closing `]`, where a `]` immediately after the
optional `!` belongs to the content.  `none` when there is no closing `]`. -/
def parseClass (l : List Char) : Option (Bool × List Char × List Char) :=
  let p := match l with
    | '!' :: t => (true, t)
    | _ => (false, l)
  match p.2 with
  | ']' :: t => (splitOnRBracket t).map (fun q => (p.1, ']' :: q.1, q.2))
  | other => (splitOnRBracket other).map (fun q => (p.1, q.1, q.2))

/-- Tokenizes a glob pattern; the budget is consumed one character (or one
character class) at a time, so a budget of the pattern length suffices. -/
def tokenizeGlob : Nat → List Char → List GTok
  | 0, _ => []
  | _ + 1, [] => []
  | fuel + 1, '*' :: t => .star :: tokenizeGlob fuel t
  | fuel + 1, '?' :: t => .qmark :: tokenizeGlob fuel t
  | fuel + 1, '[' :: t =>
    match parseClass t with
    | some (neg, content, rest) => .cclass neg content :: tokenizeGlob fuel rest
    | none => .lit '[' :: tokenizeGlob fuel t
  | fuel + 1, c :: t => .lit c :: tokenizeGlob fuel t

/-- Character-class membership, with `a-b` ranges as in the regular
expression the class is translated to. -/
def classMatches : List Char → Char → Bool
  | a :: '-' :: b :: rest, c =>
    (a.toNat ≤ c.toNat && c.toNat ≤ b.toNat) || classMatches rest c
  | a :: rest, c => a = c || classMatches rest c
  | [], _ => false

/-- Matches a token list against a character list; `.star` matches any
suffix split (the `.*` of the translated pattern, in `DOTALL` mode). -/
def gmatch : List GTok → List Char → Bool
  | [], [] => true
  | [], _ :: _ => false
  | .star :: ts, s => s.tails.any (fun t => gmatch ts t)
  | .qmark :: _, [] => false
  | .qmark :: ts, _ :: u => gmatch ts u
  | .cclass _ _ :: _, [] => false
  | .cclass neg content :: ts, c :: u => (classMatches content c != neg) && gmatch ts u
  | .lit _ :: _, [] => false
  | .lit a :: ts, c :: u => a = c && gmatch ts u

/-- `fnmatch.fnmatch(s, pat)` on POSIX (where `normcase` is the identity). -/
def fnmatch (s pat : String) : Bool :=
  gmatch (tokenizeGlob pat.data.length pat.data) s.data

/-! ### Text codecs -/

/-- Universal-newlines translation applied by Python text-mode reads with
`newline=None`: `\r\n` and lone `\r` become `\n`. -/
def universalNewlines : List Nat → List Nat
  | 13 :: 10 :: rest => 10 :: universalNewlines rest
  | 13 :: rest => 10 :: universalNewlines rest
  | c :: rest => c :: universalNewlines rest
  | [] => []

/-- Is `b` a UTF-8 continuation byte (`0x80 ≤ b < 0xC0`)? -/
def isCont (b : Nat) : Bool := 0x80 ≤ b && b < 0xC0

/-- Decodes one UTF-8-encoded code point from the front of a byte list,
returning it with the remaining bytes; `none` on malformed input.  As in
Python's strict `utf-8` codec, overlong forms, surrogates, out-of-range
leads and truncated sequences are rejected. -/
def utf8Split : List Nat → Option (Nat × List Nat)
  | [] => none
  | b :: bs =>
    if b < 0x80 then some (b, bs)
    else if b < 0xC2 then none
    else if b < 0xE0 then
      match bs with
      | b1 :: bs' =>
        if isCont b1 then some ((b - 0xC0) * 64 + (b1 - 0x80), bs') else none
      | [] => none
    else if b < 0xF0 then
      match bs with
      | b1 :: b2 :: bs' =>
        if isCont b1 && isCont b2 then
          let c := (b - 0xE0) * 4096 + (b1 - 0x80) * 64 + (b2 - 0x80)
          if 0x800 ≤ c && ¬(0xD800 ≤ c && c < 0xE000) then some (c, bs')
          else none
        else none
      | _ => none
    else if b < 0xF5 then
      match bs with
      | b1 :: b2 :: b3 :: bs' =>
        if isCont b1 && isCont b2 && isCont b3 then
          let c := (b - 0xF0) * 0x40000 + (b1 - 0x80) * 4096
            + (b2 - 0x80) * 64 + (b3 - 0x80)
          if 0x10000 ≤ c && c < 0x110000 then some (c, bs')
          else none
        else none
      | _ => none
    else none

/-- Strict UTF-8 decoding, splitting one code point at a time; the budget
decreases once per code point, and each code point consumes at least one
byte, so a budget of the byte count suffices. -/
def utf8DecodeF : Nat → List Nat → Option (List Nat)
  | _, [] => some []
  | 0, _ :: _ => none
  | fuel + 1, l =>
    match utf8Split l with
    | some (c, rest) => (utf8DecodeF fuel rest).map (c :: ·)
    | none => none

/-- Strict UTF-8 decoding of a byte list into code points, as Python's
`utf-8` codec. -/
def utf8Decode (bs : List Nat) : Option (List Nat) :=
  utf8DecodeF bs.length bs

/-- UTF-8 encoding of one code point; `none` for surrogates and
out-of-range values (Python raises `UnicodeEncodeError` there). -/
def utf8EncodeChar (c : Nat) : Option (List Nat) :=
  if c < 0x80 then some [c]
  else if c < 0x800 then some [0xC0 + c / 64, 0x80 + c % 64]
  else if c < 0x10000 then
    if 0xD800 ≤ c && c < 0xE000 then none
    else some [0xE0 + c / 4096, 0x80 + c / 64 % 64, 0x80 + c % 64]
  else if c < 0x110000 then
    some [0xF0 + c / 0x40000, 0x80 + c / 4096 % 64, 0x80 + c / 64 % 64, 0x80 + c % 64]
  else none

/-- UTF-8 encoding of a code-point list. -/
def utf8Encode : List Nat → Option (List Nat)
  | [] => some []
  | c :: cs =>
    match utf8EncodeChar c, utf8Encode cs with
    | some b, some r => some (b ++ r)
    | _, _ => none

/-- The `cp1252` decoding of a byte in `0x80–0x9F`; `none` for the five
positions that codec leaves undefined. -/
def cp1252Hi (b : Nat) : Option Nat :=
  if b = 0x80 then some 0x20AC
  else if b = 0x82 then some 0x201A
  else if b = 0x83 then some 0x0192
  else if b = 0x84 then some 0x201E
  else if b = 0x85 then some 0x2026
  else if b = 0x86 then some 0x2020
  else if b = 0x87 then some 0x2021
  else if b = 0x88 then some 0x02C6
  else if b = 0x89 then some 0x2030
  else if b = 0x8A then some 0x0160
  else if b = 0x8B then some 0x2039
  else if b = 0x8C then some 0x0152
  else if b = 0x8E then some 0x017D
  else if b = 0x91 then some 0x2018
  else if b = 0x92 then some 0x2019
  else if b = 0x93 then some 0x201C
  else if b = 0x94 then some 0x201D
  else if b = 0x95 then some 0x2022
  else if b = 0x96 then some 0x2013
  else if b = 0x97 then some 0x2014
  else if b = 0x98 then some 0x02DC
  else if b = 0x99 then some 0x2122
  else if b = 0x9A then some 0x0161
  else if b = 0x9B then some 0x203A
  else if b = 0x9C then some 0x0153
  else if b = 0x9E then some 0x017E
  else if b = 0x9F then some 0x0178
  else none

/-- Strict `cp1252` decoding of a byte list. -/
def cp1252Decode : List Nat → Option (List Nat)
  | [] => some []
  | b :: bs =>
    if b < 0x80 || (0xA0 ≤ b && b < 0x100) then (cp1252Decode bs).map (b :: ·)
    else
      match cp1252Hi b with
      | some c => (cp1252Decode bs).map (c :: ·)
      | none => none

/-- Inverse of `cp1252Hi`, used to encode code points back to `cp1252`. -/
def cp1252HiInv (c : Nat) : Option Nat :=
  if c = 0x20AC then some 0x80
  else if c = 0x201A then some 0x82
  else if c = 0x0192 then some 0x83
  else if c = 0x201E then some 0x84
  else if c = 0x2026 then some 0x85
  else if c = 0x2020 then some 0x86
  else if c = 0x2021 then some 0x87
  else if c = 0x02C6 then some 0x88
  else if c = 0x2030 then some 0x89
  else if c = 0x0160 then some 0x8A
  else if c = 0x2039 then some 0x8B
  else if c = 0x0152 then some 0x8C
  else if c = 0x017D then some 0x8E
  else if c = 0x2018 then some 0x91
  else if c = 0x2019 then some 0x92
  else if c = 0x201C then some 0x93
  else if c = 0x201D then some 0x94
  else if c = 0x2022 then some 0x95
  else if c = 0x2013 then some 0x96
  else if c = 0x2014 then some 0x97
  else if c = 0x02DC then some 0x98
  else if c = 0x2122 then some 0x99
  else if c = 0x0161 then some 0x9A
  else if c = 0x203A then some 0x9B
  else if c = 0x0153 then some 0x9C
  else if c = 0x017E then some 0x9E
  else if c = 0x0178 then some 0x9F
  else none

/-- Strict `cp1252` encoding of a code-point list. -/
def cp1252Encode : List Nat → Option (List Nat)
  | [] => some []
  | c :: cs =>
    if c < 0x80 || (0xA0 ≤ c && c < 0x100) then (cp1252Encode cs).map (c :: ·)
    else
      match cp1252HiInv c with
      | some b => (cp1252Encode cs).map (b :: ·)
      | none => none

/-! ### Base64 -/

/-- The base64 alphabet character for a sextet. -/
def b64Char (n : Nat) : Char :=
  if n < 26 then Char.ofNat (65 + n)
  else if n < 52 then Char.ofNat (97 + (n - 26))
  else if n < 62 then Char.ofNat (48 + (n - 52))
  else if n = 62 then '+'
  else '/'

/-- `base64.b64encode` of a byte list, with `=` padding. -/
def b64encode : List Nat → List Char
  | b0 :: b1 :: b2 :: t =>
    b64Char (b0 / 4) :: b64Char (b0 % 4 * 16 + b1 / 16) ::
      b64Char (b1 % 16 * 4 + b2 / 64) :: b64Char (b2 % 64) :: b64encode t
  | [b0, b1] => [b64Char (b0 / 4), b64Char (b0 % 4 * 16 + b1 / 16), b64Char (b1 % 16 * 4), '=']
  | [b0] => [b64Char (b0 / 4), b64Char (b0 % 4 * 16), '=', '=']
  | [] => []

/-- The sextet value of a base64 alphabet character, if it is one. -/
def b64Val (c : Char) : Option Nat :=
  if 'A' ≤ c ∧ c ≤ 'Z' then some (c.toNat - 65)
  else if 'a' ≤ c ∧ c ≤ 'z' then some (c.toNat - 97 + 26)
  else if '0' ≤ c ∧ c ≤ '9' then some (c.toNat - 48 + 52)
  else if c = '+' then some 62
  else if c = '/' then some 63
  else none

/-- Decodes base64 four characters at a time, honouring `=` padding at the
end; `none` on a malformed tail (Python raises `binascii.Error`). -/
def b64Quads : List Char → Option (List Nat)
  | [] => some []
  | [a, b, '=', '='] =>
    match b64Val a, b64Val b with
    | some va, some vb => some [va * 4 + vb / 16]
    | _, _ => none
  | [a, b, c, '='] =>
    match b64Val a, b64Val b, b64Val c with
    | some va, some vb, some vc => some [va * 4 + vb / 16, vb % 16 * 16 + vc / 4]
    | _, _, _ => none
  | a :: b :: c :: d :: rest =>
    match b64Val a, b64Val b, b64Val c, b64Val d with
    | some va, some vb, some vc, some vd =>
      (b64Quads rest).map
        (fun r => (va * 4 + vb / 16) :: (vb % 16 * 16 + vc / 4) :: (vc % 4 * 64 + vd) :: r)
    | _, _, _, _ => none
  | _ => none

/-- `base64.b64decode` with `validate=False`: characters outside the
alphabet and `=` are discarded before quad-wise decoding. -/
def b64decode (s : List Char) : Option (List Nat) :=
  b64Quads (s.filter (fun c => (b64Val c).isSome || c = '='))

/-! ### Configuration and the filesystem / document models -/

/-- The configuration fields consulted by `DirectoryPackager`
(`config.json`, already validated and merged by `ConfigManager`). -/
structure Config where
  capture_contents : Bool
  max_content_size : Nat
  capture_extensions : List String
  no_capture_extensions : List String
  ignore_extensions : List String
  ignore_file_patterns : List String
  ignore_folder_patterns : List String
  ignore_paths : List String
deriving DecidableEq

/-- A configuration whose list fields are all empty and which captures
contents up to the default 10 MB cap; with it nothing is ignored. -/
def emptyConfig : Config :=
  ⟨true, 10485760, [], [], [], [], [], []⟩

mutual
/-- A filesystem tree as seen by the scanner: files carry their bytes,
directories their children in enumeration (`iterdir`) order. -/
inductive FSEntry where
  | file (name : String) (bytes : List Nat) : FSEntry
  | dir (name : String) (children : FSList) : FSEntry

/-- A list of sibling filesystem entries (a mutual inductive so that
recursive functions over trees stay structural and computable). -/
inductive FSList where
  | nil : FSList
  | cons (e : FSEntry) (es : FSList) : FSList
end

/-- The sibling list as an ordinary `List`. -/
def FSList.toList : FSList → List FSEntry
  | .nil => []
  | .cons e es => e :: es.toList

/-- Builds a sibling list from an ordinary `List`. -/
def FSList.ofList : List FSEntry → FSList
  | [] => .nil
  | e :: es => .cons e (FSList.ofList es)

mutual
/-- A positive size of a tree, bounding its depth. -/
def fsSizeE : FSEntry → Nat
  | .file _ _ => 1
  | .dir _ cs => fsSizeF cs + 1

/-- A positive size of a sibling list, bounding the depth below it. -/
def fsSizeF : FSList → Nat
  | .nil => 1
  | .cons e es => fsSizeE e + fsSizeF es
end

/-- The size of an ordinary list of entries. -/
def fsSizeL (es : List FSEntry) : Nat :=
  es.foldr (fun e a => fsSizeE e + a) 1

/-- The name of a filesystem entry. -/
def FSEntry.name : FSEntry → String
  | .file n _ => n
  | .dir n _ => n

/-- Is the entry a directory? -/
def FSEntry.isDir : FSEntry → Bool
  | .file _ _ => false
  | .dir _ _ => true

/-- A content block of a `FileNode`: captured text (with the encoding it
was decoded by), captured binary (base64 characters), or a read error. -/
inductive ContentBlock where
  | text (encoding : String) (data : List Nat) : ContentBlock
  | binary (encoding : String) (data : List Char) : ContentBlock
  | errorBlock (message : String) : ContentBlock
deriving DecidableEq

/-- Is the block a text block? -/
def ContentBlock.isText : ContentBlock → Bool
  | .text _ _ => true
  | _ => false

/-- A node of the package document: a file node (name, size, lowercased
extension, optional content block) or a directory node with ordered
children. -/
inductive Node where
  | fileNode (name : String) (size : Nat) (extension : Option String)
      (contents : Option ContentBlock) : Node
  | dirNode (name : String) (contents : List Node) : Node

/-- The name of a document node. -/
def nodeName : Node → String
  | .fileNode n _ _ _ => n
  | .dirNode n _ => n

/-- Is the node a file node? -/
def nodeIsFile : Node → Bool
  | .fileNode _ _ _ _ => true
  | .dirNode _ _ => false

/-- The children of a directory node (empty for a file node). -/
def nodeChildren : Node → List Node
  | .dirNode _ cs => cs
  | .fileNode _ _ _ _ => []

/-- The content block of a file node, when present. -/
def nodeContents : Node → Option ContentBlock
  | .fileNode _ _ _ c => c
  | .dirNode _ _ => none

/-! ### The deterministic child ordering

`items.sort(key=lambda x: (x.is_file(), x.name.lower()))`: Python's sort is
stable and ascending in the key, and a stable ascending sort is a unique
function of the key, so insertion sort computes the same list. -/

/-- Code-point-wise lexicographic `≤` on character lists (Python string
comparison). -/
def strLeB : List Char → List Char → Bool
  | [], _ => true
  | _ :: _, [] => false
  | a :: as, b :: bs =>
    if a.toNat < b.toNat then true
    else if b.toNat < a.toNat then false
    else strLeB as bs

/-- The sort key of an entry: `(is_file, name.lower())`. -/
def entryKey (e : FSEntry) : Bool × List Char :=
  (!e.isDir, e.name.data.map Char.toLower)

/-- Lexicographic `≤` on sort keys, with `false < true` on the first
component as in Python. -/
def keyLeB : Bool × List Char → Bool × List Char → Bool
  | (f1, s1), (f2, s2) => if f1 = f2 then strLeB s1 s2 else f2

/-- The ordering relation the scanner sorts children by. -/
def entryLE (a b : FSEntry) : Prop := keyLeB (entryKey a) (entryKey b) = true

instance : DecidableRel entryLE := fun a b =>
  inferInstanceAs (Decidable (_ = true))

/-- `items.sort(key=lambda x: (x.is_file(), x.name.lower()))`. -/
def sortEntries (es : List FSEntry) : List FSEntry :=
  List.insertionSort entryLE es

/-! ### IgnoreEngine -/

/-- The ignore state a scan runs under: whether a pattern file was found at
the root, its (stripped, non-comment) lines, and the static configuration. -/
structure IgnoreCtx where
  useGitignore : Bool
  patterns : List String
  config : Config
deriving DecidableEq

/-- One pattern of the pattern file against one entry, as in the loop body
of `matches_gitignore_pattern`: negation patterns are skipped; a pattern
ending in `/` is directory-only and is matched with the trailing `/`
stripped; otherwise the base name and the relative path are glob-matched
(plus a redundant repeat of the relative-path match when the pattern
contains `/`). -/
def patternMatches (pattern : String) (rel : List String) (name : String)
    (isDir : Bool) : Bool :=
  if strStartsWith pattern "!" then false
  else if strEndsWith pattern "/" then
    isDir && (fnmatch name (dropLastChar pattern) || fnmatch (joinPath rel) (dropLastChar pattern))
  else
    (fnmatch name pattern || fnmatch (joinPath rel) pattern)
      || (strHasChar pattern '/' && fnmatch (joinPath rel) pattern)

/-- `DirectoryPackager.matches_gitignore_pattern` for an entry whose path
relative to the scan root has components `rel`. -/
def matchesGitignorePattern (useGitignore : Bool) (patterns : List String)
    (rel : List String) (name : String) (isDir : Bool) : Bool :=
  if !useGitignore then false
  else patterns.any (fun p => patternMatches p rel name isDir)

/-- The configuration-mode filters of `DirectoryPackager.should_ignore`:
ignored extensions (files only, case-insensitive suffix), file glob
patterns (any entry), folder glob patterns (directories only) and exact
paths (name equality or full-path suffix).  `root` is the textual path of
the scan root, used only for the full-path suffix check. -/
def configIgnore (cfg : Config) (root : String) (rel : List String)
    (name : String) (isDir : Bool) : Bool :=
  (!isDir && cfg.ignore_extensions.any
      (fun ext => strEndsWith (lowerStr name) (lowerStr ext)))
  || cfg.ignore_file_patterns.any (fun pat => fnmatch name pat)
  || (isDir && cfg.ignore_folder_patterns.any (fun pat => fnmatch name pat))
  || cfg.ignore_paths.any
      (fun ip => strEndsWith (joinPath (root :: rel)) ip || name.data == ip.data)

/-- `DirectoryPackager.should_ignore`: in pattern-file mode, the pattern
match plus the two essential names; otherwise the configuration filters. -/
def shouldIgnore (ctx : IgnoreCtx) (root : String) (rel : List String)
    (name : String) (isDir : Bool) : Bool :=
  if ctx.useGitignore && matchesGitignorePattern ctx.useGitignore ctx.patterns rel name isDir then
    true
  else if ctx.useGitignore then
    name.data == ".git".data || name.data == "__pycache__".data
  else
    configIgnore ctx.config root rel name isDir

/-! ### ContentCodec: capture -/

/-- The fixed known-binary extension list of
`DirectoryPackager._is_binary_file`. -/
def packagerBinaryExtensions : List String :=
  [".xlsx", ".xls", ".docx", ".doc", ".pptx", ".ppt",
   ".zip", ".rar", ".7z", ".tar", ".gz", ".bz2",
   ".jpg", ".jpeg", ".png", ".gif", ".bmp", ".ico", ".tiff", ".svg",
   ".mp3", ".mp4", ".avi", ".mkv", ".wav", ".ogg",
   ".exe", ".dll", ".so", ".dylib",
   ".pdf", ".bin", ".dat", ".db", ".sqlite"]

/-- `DirectoryPackager._is_binary_file`: extension membership in the fixed
known-binary list. -/
def isBinaryFileP (name : String) : Bool :=
  strMem (lowerStr (suffixOf name)) packagerBinaryExtensions

/-- `DirectoryPackager._should_capture_contents`: capture enabled, size at
most the cap, extension in the allow-list if one is configured, extension
not in the deny-list. -/
def shouldCaptureContents (cfg : Config) (name : String) (size : Nat) : Bool :=
  cfg.capture_contents
  && !(size > cfg.max_content_size)
  && !(!cfg.capture_extensions.isEmpty
        && !strMem (lowerStr (suffixOf name)) cfg.capture_extensions)
  && !(!cfg.no_capture_extensions.isEmpty
        && strMem (lowerStr (suffixOf name)) cfg.no_capture_extensions)

/-- The fixed ordered fallback encodings tried after UTF-8 fails. -/
def fallbackEncodings : List String := ["latin-1", "cp1252", "iso-8859-1"]

/-- Decoding a byte list with one of the named codecs Python is asked for
in `_get_file_contents`; `latin-1` and `iso-8859-1` map every byte to the
same code point. -/
def decodeWith : String → List Nat → Option (List Nat)
  | "utf-8", bs => utf8Decode bs
  | "latin-1", bs => if bs.all (· < 256) then some bs else none
  | "cp1252", bs => cp1252Decode bs
  | "iso-8859-1", bs => if bs.all (· < 256) then some bs else none
  | _, _ => none

/-- Tries the fallback encodings in order, returning the first that
decodes together with its name. -/
def tryFallbacks : List String → List Nat → Option (String × List Nat)
  | [], _ => none
  | enc :: rest, bs =>
    match decodeWith enc bs with
    | some cs => some (enc, cs)
    | none => tryFallbacks rest bs

/-- `DirectoryPackager._get_file_contents` (reads never raise in this
model, so the error branch does not appear): a known-binary extension goes
straight to base64; otherwise UTF-8 is attempted, then the fallbacks in
order, then base64.  Text reads apply universal-newlines translation. -/
def getFileContents (name : String) (bytes : List Nat) : ContentBlock :=
  if isBinaryFileP name then .binary "base64" (b64encode bytes)
  else
    match utf8Decode bytes with
    | some cs => .text "utf-8" (universalNewlines cs)
    | none =>
      match tryFallbacks fallbackEncodings bytes with
      | some (enc, cs) => .text enc (universalNewlines cs)
      | none => .binary "base64" (b64encode bytes)

/-- `DirectoryPackager.get_file_info` for a readable file: metadata plus
the content block when capture is authorized. -/
def getFileInfo (cfg : Config) (name : String) (bytes : List Nat) : Node :=
  .fileNode name bytes.length
    (if suffixOf name = "" then none else some (lowerStr (suffixOf name)))
    (if shouldCaptureContents cfg name bytes.length then
       some (getFileContents name bytes)
     else none)

/-! ### TreeSerializer -/

/-- Splits decoded text at `\n` into lines. -/
def splitNl : List Nat → List (List Nat)
  | [] => [[]]
  | 10 :: t => [] :: splitNl t
  | c :: t =>
    match splitNl t with
    | l :: ls => (c :: l) :: ls
    | [] => [[c]]

/-- ASCII whitespace, as stripped by Python `str.strip`. -/
def isWs (c : Nat) : Bool := c = 32 || c = 9 || c = 10 || c = 13 || c = 11 || c = 12

/-- `str.strip` on decoded text. -/
def stripWs (l : List Nat) : List Nat :=
  ((l.dropWhile isWs).reverse.dropWhile isWs).reverse

/-- The pattern lines of a pattern file: lines are stripped, and blank
lines and `#` comments discarded. -/
def parsePatterns (cs : List Nat) : List String :=
  ((splitNl cs).map stripWs).filterMap
    (fun l => if l.isEmpty || l.head? = some 35 then none
              else some ⟨l.map Char.ofNat⟩)

/-- `DirectoryPackager.load_gitignore`: probes the root's children for a
`.gitignore` file, reads it in UTF-8 text mode and keeps its stripped
non-comment lines; a missing file, a directory of that name or an
undecodable file leaves pattern-file mode off. -/
def loadGitignore (children : List FSEntry) : Bool × List String :=
  match children.find? (fun e => e.name.data == ".gitignore".data) with
  | some (.file _ bytes) =>
    match utf8Decode bytes with
    | some cs => (true, parsePatterns (universalNewlines cs))
    | none => (false, [])
  | _ => (false, [])

/-- The ignore state `scan_directory` establishes for a root with the given
children. -/
def ctxOfScan (cfg : Config) (children : List FSEntry) : IgnoreCtx :=
  ⟨(loadGitignore children).1, (loadGitignore children).2, cfg⟩

/-- The shared walk of `scan_directory` / `_scan_subdirectory`: children
are sorted by `(is_file, name.lower())`, ignored entries are skipped
without recursing, files become file nodes and directories are scanned
recursively.  `rel` is the component path of the current directory
relative to the scan root; the budget decreases once per directory level,
so any budget exceeding the tree size suffices. -/
def scanL (ctx : IgnoreCtx) (root : String) : Nat → List String → List FSEntry → List Node
  | 0, _, _ => []
  | fuel + 1, rel, es =>
    (sortEntries es).filterMap fun e =>
      if shouldIgnore ctx root (rel ++ [e.name]) e.name e.isDir then none
      else some
        (match e with
         | .file name bytes => getFileInfo ctx.config name bytes
         | .dir name cs => .dirNode name (scanL ctx root fuel (rel ++ [name]) cs.toList))

/-- `DirectoryPackager.scan_directory` for a root directory with the given
name and children: pattern-file mode is probed once at the root and the
walk proceeds with that state. -/
def scanDirectory (cfg : Config) (rootName : String) (children : List FSEntry) : Node :=
  .dirNode rootName
    (scanL (ctxOfScan cfg children) rootName (fsSizeL children + 1) [] children)

/-! ### TreeExtractor

The destination filesystem is modelled as a map from root-relative
component paths to file bytes plus a directory-existence predicate, with
the per-run counters of `DirectoryExtractor.stats`.  Timestamps
(`os.utime`) are outside the model. -/

/-- The extractor's view of the destination: files, directories and the
`directories` / `files` / `errors` counters. -/
structure ExtractState where
  fileAt : List String → Option (List Nat)
  dirAt : List String → Bool
  dirCount : Nat
  fileCount : Nat
  errCount : Nat

/-- A fresh, empty destination. -/
def emptyExtractState : ExtractState :=
  ⟨fun _ => none, fun _ => false, 0, 0, 0⟩

/-- Writes (creating or truncating) the file at `path`. -/
def writeFileAt (st : ExtractState) (path : List String) (bytes : List Nat) : ExtractState :=
  { st with fileAt := fun q => if q = path then some bytes else st.fileAt q }

/-- `Path.touch()`: creates an empty file when nothing exists at `path`;
an existing file or directory only gets its timestamps refreshed. -/
def touchAt (st : ExtractState) (path : List String) : ExtractState :=
  if (st.fileAt path).isSome || st.dirAt path then st else writeFileAt st path []

/-- Bumps the file counter. -/
def incFiles (st : ExtractState) : ExtractState := { st with fileCount := st.fileCount + 1 }

/-- Bumps the error counter. -/
def incErr (st : ExtractState) : ExtractState := { st with errCount := st.errCount + 1 }

/-- `DirectoryExtractor._create_directory`: an existing path is skipped
unless overwriting; `mkdir(parents=True, exist_ok=True)` creates the
directory and its missing ancestors, and raises (recorded as an error)
when a file occupies the path. -/
def createDirectory (ov : Bool) (st : ExtractState) (path : List String) : ExtractState :=
  if ((st.fileAt path).isSome || st.dirAt path) && !ov then st
  else if (st.fileAt path).isSome then incErr st
  else
    { st with
      dirAt := fun q => st.dirAt q || (pathRest q path).isSome,
      dirCount := st.dirCount + 1 }

/-- Writing a text block: the declared encoding encodes the code points
back to bytes; `none` models `UnicodeEncodeError` (or an unknown codec).
On POSIX the write-side newline translation is the identity. -/
def encodeText : String → List Nat → Option (List Nat)
  | "utf-8", data => utf8Encode data
  | "latin-1", data => if data.all (· < 256) then some data else none
  | "cp1252", data => cp1252Encode data
  | "iso-8859-1", data => if data.all (· < 256) then some data else none
  | _, _ => none

/-- `DirectoryExtractor._extract_file`.  An existing target without the
overwrite flag is skipped.  A missing content block and an error block
both `touch` an empty file.  A text block is written in its declared
encoding (`open('w')` truncates the file even when encoding then fails,
which is recorded as an error).  A binary block is base64-decoded and
written; any other declared binary encoding raises `ValueError`, which the
method's own handler records as an error before returning, leaving the
file unwritten. -/
def extractFile (ov : Bool) (contents : Option ContentBlock) (path : List String)
    (st : ExtractState) : ExtractState :=
  if ((st.fileAt path).isSome || st.dirAt path) && !ov then st
  else
    match contents with
    | none => incFiles (touchAt st path)
    | some (.text enc data) =>
      if st.dirAt path then incErr st
      else
        match encodeText enc data with
        | some bytes => incFiles (writeFileAt st path bytes)
        | none => incErr (writeFileAt st path [])
    | some (.binary enc data) =>
      if enc = "base64" then
        match b64decode data with
        | some bytes =>
          if st.dirAt path then incErr st
          else incFiles (writeFileAt st path bytes)
        | none => incErr st
      else incErr st
    | some (.errorBlock _) => incFiles (touchAt st path)

/-- The recursive walk of `_extract_subdirectory` / `extract_directory`
over one node: a file node is materialized, a directory node is created
and its children processed in order.  The budget decreases once per
directory level. -/
def extractNodeF (ov : Bool) : Nat → Node → List String → ExtractState → ExtractState
  | 0, _, _, st => st
  | fuel + 1, node, path, st =>
    match node with
    | .fileNode _ _ _ contents => extractFile ov contents path st
    | .dirNode _ children =>
      children.foldl (fun s c => extractNodeF ov fuel c (path ++ [nodeName c]) s)
        (createDirectory ov st path)

/-- `DirectoryExtractor.extract_directory` for a document whose top-level
`type` is `directory` (as `main` requires): counters are reset, the
destination root is created and each child is processed; per-item failures
are recorded and do not stop the loop.  The budget bounds the recursion
depth; any budget at least the node count is sufficient. -/
def extractDirectoryF (ov : Bool) (fuel : Nat) (children : List Node)
    (st : ExtractState) : ExtractState :=
  let st0 := { st with dirCount := 0, fileCount := 0, errCount := 0 }
  let st1 := createDirectory ov st0 []
  children.foldl (fun s c => extractNodeF ov fuel c [nodeName c] s) st1

/-! ### TreeValidator -/

/-- The known-binary extension list of `DirectoryValidator.is_binary_file`
(it differs from the packager's list). -/
def validatorBinaryExtensions : List String :=
  [".xlsx", ".xls", ".doc", ".docx", ".pdf", ".zip", ".rar", ".7z",
   ".tar", ".gz", ".exe", ".dll", ".so", ".dylib", ".bin", ".img",
   ".iso", ".mp3", ".mp4", ".avi", ".mkv", ".jpg", ".jpeg", ".png",
   ".gif", ".bmp", ".tiff"]

/-- `DirectoryValidator.is_binary_file`: a case-insensitive suffix match
of the whole relative path against the known-binary list. -/
def isBinaryFileV (filePath : String) : Bool :=
  validatorBinaryExtensions.any (fun ext => strEndsWith (lowerStr filePath) ext)

/-- `DirectoryValidator.get_size_tolerance`: zero for non-binary files,
otherwise the larger of 500 bytes and 1% of the original size (the
floating-point product `int(original_size * 0.01)` is modelled as the
exact floor `original_size / 100`). -/
def getSizeTolerance (filePath : String) (originalSize : Nat) : Nat :=
  if isBinaryFileV filePath then max 500 (originalSize / 100) else 0

/-- `DirectoryValidator.should_compare_content`: no hashing above 50 MB,
nor above 1 MB for binary-classified files. -/
def shouldCompareContent (filePath : String) (fileSize : Nat) : Bool :=
  if fileSize > 50 * 1024 * 1024 then false
  else if isBinaryFileV filePath && fileSize > 1024 * 1024 then false
  else true

/-- The absolute size difference. -/
def absDiff (a b : Nat) : Nat := max a b - min a b

/-- The outcome of `compare_files` for one same-keyed pair. -/
structure FileCmp where
  sizeMismatch : Bool
  contentMismatch : Bool
  matched : Bool
deriving DecidableEq

/-- The body of the `compare_files` loop for a path present in both maps:
a size difference beyond tolerance is a size-mismatch error; content
hashes (the `get_file_hash` results, `""` on a hash failure) are compared
when `should_compare_content` allows, a mismatch being acceptable only for
a binary-classified file within size tolerance; a skipped comparison
counts the file as matched. -/
def compareFilePair (filePath : String) (origSize extrSize : Nat)
    (origHash extrHash : String) : FileCmp :=
  let sizeDiff := absDiff origSize extrSize
  let tol := getSizeTolerance filePath origSize
  let sizeBad := sizeDiff > tol
  if shouldCompareContent filePath origSize then
    if origHash.data ≠ [] ∧ extrHash.data ≠ [] ∧ origHash.data ≠ extrHash.data then
      if isBinaryFileV filePath && sizeDiff ≤ tol then
        ⟨sizeBad, false, true⟩
      else ⟨sizeBad, true, false⟩
    else if origHash.data ≠ [] ∧ extrHash.data ≠ [] then ⟨sizeBad, false, true⟩
    else ⟨sizeBad, false, false⟩
  else ⟨sizeBad, false, true⟩

/-! ### Semantic lookup functions for the round-trip statement -/

/-- The first entry with the given name (unique under sibling-name
distinctness, as on a real filesystem). -/
def findEntry (es : List FSEntry) (n : String) : Option FSEntry :=
  es.find? (fun e => e.name.data == n.data)

/-- The bytes of the file at a component path below a sibling list. -/
def findFileL : List FSEntry → List String → Option (List Nat)
  | _, [] => none
  | es, n :: q =>
    match findEntry es n with
    | some (.file _ bs) => if q.isEmpty then some bs else none
    | some (.dir _ cs) => if q.isEmpty then none else findFileL cs.toList q
    | none => none

/-- Is there a directory at a component path below a sibling list? -/
def findDirL : List FSEntry → List String → Bool
  | _, [] => false
  | es, n :: q =>
    match findEntry es n with
    | some (.dir _ cs) => q.isEmpty || findDirL cs.toList q
    | _ => false

/-- The file map after extracting the scanned entries `es` under the path
prefix `pfx` over an existing map `old`. -/
def overlayFile (es : List FSEntry) (pfx : List String)
    (old : List String → Option (List Nat)) (p : List String) : Option (List Nat) :=
  match pathRest pfx p with
  | some (n :: q) => if (findEntry es n).isSome then findFileL es (n :: q) else old p
  | _ => old p

/-- The directory predicate after extracting the scanned entries `es`
under the path prefix `pfx` over an existing predicate `old`. -/
def overlayDir (es : List FSEntry) (pfx : List String)
    (old : List String → Bool) (p : List String) : Bool :=
  match pathRest pfx p with
  | some (n :: q) => if (findEntry es n).isSome then findDirL es (n :: q) else old p
  | _ => old p

/-- The round-trip precondition on a tree, checked level by level: sibling
names are distinct; no entry is ignored; every file consists of bytes
(below 256) free of carriage returns, is below the capture cap and clears
the extension lists, and is not classified binary.  The budget bounds the
tree depth; insufficient budget only accepts an empty level, so a `true`
result vouches for the whole tree. -/
def goodTreeF (ctx : IgnoreCtx) (root : String) : Nat → List String → List FSEntry → Bool
  | 0, _, es => es.isEmpty
  | fuel + 1, rel, es =>
    decide ((es.map FSEntry.name).Nodup)
    && es.all fun e =>
      !shouldIgnore ctx root (rel ++ [e.name]) e.name e.isDir
      && (match e with
          | .file name bytes =>
            bytes.all (fun b => decide (b < 256) && b != 13)
              && shouldCaptureContents ctx.config name bytes.length
              && !isBinaryFileP name
          | .dir name cs => goodTreeF ctx root fuel (rel ++ [name]) cs.toList)

/-- The per-entry part of the round-trip precondition (the body of the
`goodTreeF` conjunction): not ignored, and either a clean capturable text
file or a directory whose children satisfy the precondition. -/
def goodEntryF (ctx : IgnoreCtx) (root : String) (fuel : Nat) (rel : List String)
    (e : FSEntry) : Bool :=
  !shouldIgnore ctx root (rel ++ [e.name]) e.name e.isDir
  && (match e with
      | .file name bytes =>
        bytes.all (fun b => decide (b < 256) && b != 13)
          && shouldCaptureContents ctx.config name bytes.length
          && !isBinaryFileP name
      | .dir name cs => goodTreeF ctx root fuel (rel ++ [name]) cs.toList)

/-- The sort key of a document node, mirroring `entryKey`. -/
def nodeKey (n : Node) : Bool × List Char :=
  (nodeIsFile n, (nodeName n).data.map Char.toLower)

/-- Key order on document nodes: directories before files, then
case-insensitive lexicographic order on names. -/
def nodeLE (a b : Node) : Prop := keyLeB (nodeKey a) (nodeKey b) = true

/-- Pairwise-distinct sort keys on a sibling list. -/
def keysDistinct (es : List FSEntry) : Prop :=
  es.Pairwise (fun a b => entryKey a ≠ entryKey b)

/-! ### Theorems -/


lemma compareFilePair_sizeMismatch (fp : String) (origSize extrSize : Nat)
    (oh eh : String) :
    (compareFilePair fp origSize extrSize oh eh).sizeMismatch =
      decide (getSizeTolerance fp origSize < absDiff origSize extrSize) := by
  simp only [compareFilePair]
  repeat' split
  all_goals rfl

lemma compareFilePair_contentMismatch (fp : String) (origSize extrSize : Nat)
    (oh eh : String) :
    (compareFilePair fp origSize extrSize oh eh).contentMismatch =
      (shouldCompareContent fp origSize
        && (decide (oh.data ≠ []) && decide (eh.data ≠ []) && decide (oh.data ≠ eh.data))
        && !(isBinaryFileV fp
              && decide (absDiff origSize extrSize ≤ getSizeTolerance fp origSize))) := by
  by_cases hs : shouldCompareContent fp origSize = true <;>
  by_cases h1 : oh.data = [] <;>
  by_cases h2 : eh.data = [] <;>
  by_cases h3 : oh.data = eh.data <;>
  by_cases hb : isBinaryFileV fp = true <;>
  by_cases ht : absDiff origSize extrSize ≤ getSizeTolerance fp origSize <;>
  simp [compareFilePair, hs, h1, h2, h3, hb, ht]

lemma compareFilePair_matched (fp : String) (origSize extrSize : Nat)
    (oh eh : String) :
    (compareFilePair fp origSize extrSize oh eh).matched =
      (if shouldCompareContent fp origSize then
         if oh.data ≠ [] ∧ eh.data ≠ [] ∧ oh.data ≠ eh.data then
           isBinaryFileV fp
             && decide (absDiff origSize extrSize ≤ getSizeTolerance fp origSize)
         else decide (oh.data ≠ []) && decide (eh.data ≠ [])
       else true) := by
  by_cases hs : shouldCompareContent fp origSize = true <;>
  by_cases h1 : oh.data = [] <;>
  by_cases h2 : eh.data = [] <;>
  by_cases h3 : oh.data = eh.data <;>
  by_cases hb : isBinaryFileV fp = true <;>
  by_cases ht : absDiff origSize extrSize ≤ getSizeTolerance fp origSize <;>
  simp [compareFilePair, hs, h1, h2, h3, hb, ht]

/-- C3: the validator's size tolerance is exactly 0 for files whose
extension is not on the known-binary list and exactly
`max 500 (originalSize / 100)` (500 bytes or 1% of the original size,
whichever is larger) when it is; a size difference strictly greater than
the tolerance is recorded as a size-mismatch error; in particular, for a
binary file of original size 50000, a 10-byte difference passes and a
600-byte difference fails. -/
theorem C3_size_tolerance (fp : String) (origSize extrSize : Nat) (oh eh : String) :
    getSizeTolerance fp origSize =
      (if isBinaryFileV fp then max 500 (origSize / 100) else 0)
    ∧ (compareFilePair fp origSize extrSize oh eh).sizeMismatch =
        decide (getSizeTolerance fp origSize < absDiff origSize extrSize)
    ∧ (compareFilePair "data.xlsx" 50000 50010 oh eh).sizeMismatch = false
    ∧ (compareFilePair "data.xlsx" 50000 50600 oh eh).sizeMismatch = true := by
  refine ⟨rfl, compareFilePair_sizeMismatch .., ?_, ?_⟩
  · rw [compareFilePair_sizeMismatch]; decide
  · rw [compareFilePair_sizeMismatch]; decide

/-- C7 (counterexample): at a size of exactly 50 MB the validator still
hashes a non-binary file, while the claim's "below 50 MB" predicate says
it must not, so the claimed boundary fails at this input. -/
theorem C7_boundary_counterexample :
    shouldCompareContent "a.txt" 52428800 = true
    ∧ (decide (52428800 < 52428800)
        && (!isBinaryFileV "a.txt" || decide (52428800 < 1048576))) = false := by
  decide

/-- C7 (amended): content hashing is performed exactly when the original
size is at most 50 MB and, for binary-classified files, at most 1 MB; when
both hashes were computed and differ, a content-mismatch error is recorded
unless the file is binary-classified with its size difference within
tolerance, in which case the pair counts as matched. -/
theorem C7_content_policy_amended (fp : String) (sz origSize extrSize : Nat)
    (oh eh : String) :
    shouldCompareContent fp sz =
      (decide (sz ≤ 52428800) && (!isBinaryFileV fp || decide (sz ≤ 1048576)))
    ∧ (compareFilePair fp origSize extrSize oh eh).contentMismatch =
        (shouldCompareContent fp origSize
          && (decide (oh.data ≠ []) && decide (eh.data ≠ []) && decide (oh.data ≠ eh.data))
          && !(isBinaryFileV fp
                && decide (absDiff origSize extrSize ≤ getSizeTolerance fp origSize)))
    ∧ (compareFilePair fp origSize extrSize oh eh).matched =
        (if shouldCompareContent fp origSize then
           if oh.data ≠ [] ∧ eh.data ≠ [] ∧ oh.data ≠ eh.data then
             isBinaryFileV fp
               && decide (absDiff origSize extrSize ≤ getSizeTolerance fp origSize)
           else decide (oh.data ≠ []) && decide (eh.data ≠ [])
         else true) := by
  refine ⟨?_, compareFilePair_contentMismatch .., compareFilePair_matched ..⟩
  unfold shouldCompareContent
  by_cases hb : isBinaryFileV fp = true <;>
    by_cases h50 : sz > 50 * 1024 * 1024 <;>
    by_cases h1 : sz > 1024 * 1024 <;>
    simp [hb, h50, h1] <;> omega

/-- C9: a file node carrying an error content block, or carrying no
content block at all, materializes onto a fresh target path as an empty
(zero-byte) file. -/
theorem C9_empty_file_materialization (ov : Bool) (path : List String)
    (st : ExtractState) (msg : String)
    (hf : st.fileAt path = none) (hd : st.dirAt path = false) :
    (extractFile ov (some (.errorBlock msg)) path st).fileAt path = some []
    ∧ (extractFile ov none path st).fileAt path = some [] := by
  constructor <;> simp [extractFile, touchAt, writeFileAt, incFiles, hf, hd]

/-- C9 witness at a concrete node, path and fresh destination. -/
theorem C9_empty_file_materialization_witness :
    (extractFile false (some (.errorBlock "boom")) ["e.txt"] emptyExtractState).fileAt
        ["e.txt"] = some []
    ∧ (extractFile false none ["e.txt"] emptyExtractState).fileAt ["e.txt"] = some [] :=
  C9_empty_file_materialization false ["e.txt"] emptyExtractState "boom" rfl rfl

/-- C2 (counterexample): a document whose first file carries a binary
block with declared encoding `hex` extracts with the error recorded and
the following sibling still materialized, so extraction does not abort. -/
theorem C2_not_fatal_counterexample :
    let res := extractDirectoryF false 5
      [.fileNode "a.bin" 3 (some ".bin") (some (.binary "hex" ['0', '1'])),
       .fileNode "b.txt" 2 (some ".txt") (some (.text "utf-8" [104, 105]))]
      emptyExtractState
    res.errCount = 1 ∧ res.fileAt ["b.txt"] = some [104, 105]
    ∧ res.fileAt ["a.bin"] = none ∧ res.fileCount = 1 := by
  decide

/-- C2 (amended): a binary content block whose declared encoding is not
base64 raises an unsupported-encoding error that the per-file handler of
`_extract_file` catches itself: the error counter is incremented, nothing
is written at the target path, the file counter is untouched, and the
caller's loop goes on with subsequent items. -/
theorem C2_unsupported_encoding_amended (ov : Bool) (enc : String)
    (data : List Char) (path : List String) (st : ExtractState)
    (henc : enc ≠ "base64") (hf : st.fileAt path = none) (hd : st.dirAt path = false) :
    (extractFile ov (some (.binary enc data)) path st).fileAt path = none
    ∧ (extractFile ov (some (.binary enc data)) path st).errCount = st.errCount + 1
    ∧ (extractFile ov (some (.binary enc data)) path st).fileCount = st.fileCount := by
  refine ⟨?_, ?_, ?_⟩ <;> simp [extractFile, incErr, henc, hf, hd]

/-- C2 witness at a concrete block, path and fresh destination. -/
theorem C2_unsupported_encoding_witness :
    (extractFile false (some (.binary "hex" ['0'])) ["a.bin"] emptyExtractState).fileAt
        ["a.bin"] = none
    ∧ (extractFile false (some (.binary "hex" ['0'])) ["a.bin"]
        emptyExtractState).errCount = 1
    ∧ (extractFile false (some (.binary "hex" ['0'])) ["a.bin"]
        emptyExtractState).fileCount = 0 :=
  C2_unsupported_encoding_amended false "hex" ['0'] ["a.bin"] emptyExtractState
    (by decide) rfl rfl

/-- The first fallback encoding, latin-1, decodes every byte sequence, so
the fallback search always stops at it. -/
lemma tryFallbacks_latin1 (bs : List Nat) (h : bs.all (· < 256) = true) :
    tryFallbacks fallbackEncodings bs = some ("latin-1", bs) := by
  simp only [fallbackEncodings, tryFallbacks]
  have : decodeWith "latin-1" bs = some bs := by
    show (if bs.all (· < 256) then some bs else none) = some bs
    simp [h]
  rw [this]

/-- C10: for a file whose extension is not on the packager's known-binary
list, the captured content block is always a text block: the base64
fallback after the text decoding attempts is unreachable, because the
first fallback encoding (latin-1) decodes every byte sequence. -/
theorem C10_nonbinary_capture_is_text (name : String) (bytes : List Nat)
    (hbin : isBinaryFileP name = false) (hbytes : bytes.all (· < 256) = true) :
    (getFileContents name bytes).isText = true := by
  unfold getFileContents
  rw [hbin]
  cases h : utf8Decode bytes with
  | some cs => simp [ContentBlock.isText]
  | none => simp [tryFallbacks_latin1 bytes hbytes, ContentBlock.isText]

/-- C10 witness: a concrete non-binary file of raw bytes is captured as
text. -/
theorem C10_nonbinary_capture_is_text_witness :
    (getFileContents "x.weird" [255, 0]).isText = true :=
  C10_nonbinary_capture_is_text "x.weird" [255, 0] (by decide) (by decide)

/-- C4: with capture authorized and the extension not on the known-binary
list, a UTF-8-decodable file is captured as a text block tagged `utf-8`;
when UTF-8 decoding fails the ordered fallbacks run and the block is
tagged with the first encoding that decodes, which is always latin-1; in
particular the bytes `[255]` (invalid UTF-8, valid latin-1) give a text
block tagged `latin-1`, not a binary block. -/
theorem C4_utf8_then_fallbacks (cfg : Config) (name : String) (bytes : List Nat)
    (hcap : shouldCaptureContents cfg name bytes.length = true)
    (hbin : isBinaryFileP name = false) :
    (∀ cs, utf8Decode bytes = some cs →
      nodeContents (getFileInfo cfg name bytes) =
        some (.text "utf-8" (universalNewlines cs)))
    ∧ (utf8Decode bytes = none → bytes.all (· < 256) = true →
        tryFallbacks fallbackEncodings bytes = some ("latin-1", bytes)
        ∧ nodeContents (getFileInfo cfg name bytes) =
            some (.text "latin-1" (universalNewlines bytes)))
    ∧ (bytes = [255] →
        nodeContents (getFileInfo cfg name bytes) = some (.text "latin-1" [255])) := by
  refine ⟨?_, ?_, ?_⟩
  · intro cs hdec
    simp [getFileInfo, nodeContents, hcap, getFileContents, hbin, hdec]
  · intro hdec hbytes
    refine ⟨tryFallbacks_latin1 bytes hbytes, ?_⟩
    simp [getFileInfo, nodeContents, hcap, getFileContents, hbin, hdec,
      tryFallbacks_latin1 bytes hbytes]
  · intro hb
    subst hb
    have hdec : utf8Decode [255] = none := by decide
    simp [getFileInfo, nodeContents, hcap, getFileContents, hbin, hdec,
      tryFallbacks_latin1 [255] (by decide)]
    exact ⟨by simpa using hcap, by decide⟩

/-- C4 witness at a concrete configuration, name and byte list. -/
theorem C4_utf8_then_fallbacks_witness :
    nodeContents (getFileInfo emptyConfig "notes.txt" [255]) =
      some (.text "latin-1" [255]) :=
  (C4_utf8_then_fallbacks emptyConfig "notes.txt" [255] (by decide) (by decide)).2.2 rfl

/-- In pattern-file mode the matcher is the disjunction over patterns. -/
lemma matchesGitignorePattern_true (ps : List String) (rel : List String)
    (name : String) (isDir : Bool) :
    matchesGitignorePattern true ps rel name isDir =
      ps.any (fun p => patternMatches p rel name isDir) := by
  simp [matchesGitignorePattern]

/-- A negation pattern never matches: the loop skips it. -/
lemma patternMatches_negated (p : String) (rel : List String) (name : String)
    (isDir : Bool) (h : strStartsWith p "!" = true) :
    patternMatches p rel name isDir = false := by
  simp [patternMatches, h]

/-- C5: with pattern-file mode active, an entry is ignored exactly when it
matches a non-negated pattern of the pattern file or its base name is the
version-control metadata directory `.git` or the bytecode-cache directory
`__pycache__`; the result is the same under any two configurations (no
configuration list is consulted), and dropping the negation patterns from
the pattern list does not change the match. -/
theorem C5_pattern_mode_ignore (ps : List String) (cfg cfg' : Config)
    (root : String) (rel : List String) (name : String) (isDir : Bool) :
    shouldIgnore ⟨true, ps, cfg⟩ root rel name isDir =
      (matchesGitignorePattern true ps rel name isDir
        || (name.data == ".git".data || name.data == "__pycache__".data))
    ∧ shouldIgnore ⟨true, ps, cfg⟩ root rel name isDir =
        shouldIgnore ⟨true, ps, cfg'⟩ root rel name isDir
    ∧ matchesGitignorePattern true (ps.filter (fun p => !strStartsWith p "!"))
        rel name isDir = matchesGitignorePattern true ps rel name isDir := by
  refine ⟨?_, ?_, ?_⟩
  · simp only [shouldIgnore, Bool.true_and]
    cases h : matchesGitignorePattern true ps rel name isDir <;> simp
  · simp only [shouldIgnore]
    split <;> simp
  · rw [matchesGitignorePattern_true, matchesGitignorePattern_true]
    induction ps with
    | nil => rfl
    | cons p rest ih =>
      cases hneg : strStartsWith p "!" with
      | true =>
        simp [List.filter_cons, hneg, patternMatches_negated p rel name isDir hneg, ih]
      | false =>
        simp [List.filter_cons, hneg, ih]

/-- C6: a pattern ending in the path separator never matches a file; for a
directory it matches by glob against the base name or the root-relative
path with the trailing separator stripped; and in the concrete scenario a
pattern file containing `build/` removes a top-level `build` directory and
all of its contents from the scanned document while the sibling file
`buildkit.txt` (and the pattern file itself) is retained. -/
theorem C6_directory_only_patterns (pat : String)
    (hsl : strEndsWith pat "/" = true) :
    (∀ rel name, patternMatches pat rel name false = false)
    ∧ (strStartsWith pat "!" = false → ∀ rel name,
        patternMatches pat rel name true =
          (fnmatch name (dropLastChar pat) || fnmatch (joinPath rel) (dropLastChar pat)))
    ∧ (nodeChildren (scanDirectory emptyConfig "proj"
        [.file ".gitignore" [98, 117, 105, 108, 100, 47, 10],
         .dir "build" (.ofList [.file "x.txt" [104]]),
         .file "buildkit.txt" [104, 105]])).map nodeName =
        [".gitignore", "buildkit.txt"] := by
  refine ⟨?_, ?_, by decide⟩
  · intro rel name
    by_cases hneg : strStartsWith pat "!" = true
    · exact patternMatches_negated pat rel name false hneg
    · simp [patternMatches, hneg, hsl]
  · intro hneg rel name
    simp [patternMatches, hneg, hsl]

/-- C6 witness at the concrete pattern `build/`. -/
theorem C6_directory_only_patterns_witness :
    patternMatches "build/" ["sub", "build"] "build" false = false
    ∧ patternMatches "build/" ["build"] "build" true =
        (fnmatch "build" (dropLastChar "build/")
          || fnmatch (joinPath ["build"]) (dropLastChar "build/")) := by
  have h := C6_directory_only_patterns "build/" (by decide)
  exact ⟨h.1 ["sub", "build"] "build", h.2.1 (by decide) ["build"] "build"⟩

/-- Characters with equal code points are equal. -/
lemma char_toNat_inj (a b : Char) (h : a.toNat = b.toNat) : a = b := by
  unfold Char.toNat at h
  exact Char.eq_of_val_eq (UInt32.toNat.inj h)

/-- `strLeB` is total. -/
lemma strLeB_total : ∀ x y : List Char, strLeB x y = true ∨ strLeB y x = true
  | [], _ => Or.inl rfl
  | _ :: _, [] => Or.inr rfl
  | a :: as, b :: bs => by
    unfold strLeB
    rcases Nat.lt_trichotomy a.toNat b.toNat with h | h | h
    · simp [h]
    · simpa [h, Nat.lt_irrefl] using strLeB_total as bs
    · simp [h, Nat.lt_asymm h]

/-- `strLeB` is transitive. -/
lemma strLeB_trans : ∀ x y z : List Char,
    strLeB x y = true → strLeB y z = true → strLeB x z = true
  | [], _, _, _, _ => rfl
  | a :: as, [], _, h, _ => by simp [strLeB] at h
  | a :: as, b :: bs, [], _, h => by simp [strLeB] at h
  | a :: as, b :: bs, c :: cs, h1, h2 => by
    unfold strLeB at h1 h2 ⊢
    by_cases hab : a.toNat < b.toNat <;> by_cases hba : b.toNat < a.toNat <;>
      by_cases hbc : b.toNat < c.toNat <;> by_cases hcb : c.toNat < b.toNat <;>
      simp_all <;>
      by_cases hac : a.toNat < c.toNat <;> by_cases hca : c.toNat < a.toNat <;>
      simp_all <;>
      first
        | omega
        | exact strLeB_trans as bs cs h1 h2
        | exact Or.inr (strLeB_trans as bs cs h1 h2)

/-- `strLeB` is antisymmetric. -/
lemma strLeB_antisymm : ∀ x y : List Char,
    strLeB x y = true → strLeB y x = true → x = y
  | [], [], _, _ => rfl
  | [], _ :: _, _, h => by simp [strLeB] at h
  | _ :: _, [], h, _ => by simp [strLeB] at h
  | a :: as, b :: bs, h1, h2 => by
    unfold strLeB at h1 h2
    rcases Nat.lt_trichotomy a.toNat b.toNat with hab | hab | hab
    · simp [hab, Nat.lt_asymm hab] at h2
    · rw [char_toNat_inj a b hab,
        strLeB_antisymm as bs (by simp_all [Nat.lt_irrefl]) (by simp_all [Nat.lt_irrefl])]
    · simp [hab, Nat.lt_asymm hab] at h1

/-- `keyLeB` is total. -/
lemma keyLeB_total (k1 k2 : Bool × List Char) :
    keyLeB k1 k2 = true ∨ keyLeB k2 k1 = true := by
  obtain ⟨f1, s1⟩ := k1
  obtain ⟨f2, s2⟩ := k2
  by_cases h : f1 = f2
  · subst h
    simpa [keyLeB] using strLeB_total s1 s2
  · rcases f1 <;> rcases f2 <;> simp_all [keyLeB]

/-- `keyLeB` is transitive. -/
lemma keyLeB_trans (k1 k2 k3 : Bool × List Char) (h1 : keyLeB k1 k2 = true)
    (h2 : keyLeB k2 k3 = true) : keyLeB k1 k3 = true := by
  obtain ⟨f1, s1⟩ := k1
  obtain ⟨f2, s2⟩ := k2
  obtain ⟨f3, s3⟩ := k3
  rcases f1 <;> rcases f2 <;> rcases f3 <;> simp_all [keyLeB]
  · exact strLeB_trans _ _ _ h1 h2
  · exact strLeB_trans _ _ _ h1 h2

/-- `keyLeB` is antisymmetric. -/
lemma keyLeB_antisymm (k1 k2 : Bool × List Char) (h1 : keyLeB k1 k2 = true)
    (h2 : keyLeB k2 k1 = true) : k1 = k2 := by
  obtain ⟨f1, s1⟩ := k1
  obtain ⟨f2, s2⟩ := k2
  rcases f1 <;> rcases f2 <;> simp_all [keyLeB] <;>
    exact strLeB_antisymm _ _ h1 h2

instance : IsTotal FSEntry entryLE :=
  ⟨fun a b => keyLeB_total (entryKey a) (entryKey b)⟩

instance : IsTrans FSEntry entryLE :=
  ⟨fun a b c => keyLeB_trans (entryKey a) (entryKey b) (entryKey c)⟩

/-- The scanner's sorted sibling list is pairwise ordered by key. -/
lemma sortEntries_sorted (es : List FSEntry) :
    (sortEntries es).Pairwise entryLE :=
  List.sorted_insertionSort entryLE es

/-- The sorted sibling list is a permutation of the input. -/
lemma sortEntries_perm (es : List FSEntry) : (sortEntries es).Perm es :=
  List.perm_insertionSort entryLE es

/-- Stable sorting is a function of the key multiset when the keys are
pairwise distinct. -/
lemma sortEntries_eq_of_perm (es es' : List FSEntry) (hp : es.Perm es')
    (hk : keysDistinct es) : sortEntries es = sortEntries es' := by
  have hperm : (sortEntries es).Perm (sortEntries es') :=
    (sortEntries_perm es).trans (hp.trans (sortEntries_perm es').symm)
  refine List.Perm.eq_of_sorted ?_ (sortEntries_sorted es) (sortEntries_sorted es') hperm
  intro a b ha hb hab hba
  have hkey : entryKey a = entryKey b := keyLeB_antisymm _ _ hab hba
  have ha' : a ∈ es := (sortEntries_perm es).mem_iff.mp ha
  have hb' : b ∈ es := hp.symm.mem_iff.mp ((sortEntries_perm es').mem_iff.mp hb)
  by_contra hne
  have hsymm : Symmetric (fun (x y : FSEntry) => entryKey x ≠ entryKey y) :=
    fun x y h he => h he.symm
  exact (hk.forall hsymm ha' hb' hne) hkey

/-- C8 (counterexample): two enumerations of the same set of entries whose
keys collide (`A` and `a` lower to the same name) scan to differently
ordered children: the stable sort preserves the enumeration order of
equal-keyed entries, so the ordering is not a function of the entry set. -/
theorem C8_same_set_not_deterministic :
    ([FSEntry.file "A" [], FSEntry.file "a" []]).Perm
      [FSEntry.file "a" [], FSEntry.file "A" []]
    ∧ (nodeChildren (scanDirectory emptyConfig "r"
        [.file "A" [], .file "a" []])).map nodeName = ["A", "a"]
    ∧ (nodeChildren (scanDirectory emptyConfig "r"
        [.file "a" [], .file "A" []])).map nodeName = ["a", "A"] :=
  ⟨List.Perm.swap _ _ _, by decide, by decide⟩

/-- C8 (amended): the children of every directory node produced by the
scan walk are in ascending order of the key `(isFile, lowercased name)` —
directories before files, names case-insensitively lexicographic — and
for entry lists with pairwise-distinct keys the resulting child list is
determined by the entry set alone. -/
theorem C8_children_sorted_deterministic (ctx : IgnoreCtx) (root : String)
    (fuel : Nat) (rel : List String) (es es' : List FSEntry) :
    (scanL ctx root fuel rel es).Pairwise nodeLE
    ∧ (es.Perm es' → keysDistinct es →
        scanL ctx root fuel rel es = scanL ctx root fuel rel es') := by
  constructor
  · cases fuel with
    | zero => simp [scanL]
    | succ f =>
      simp only [scanL]
      refine List.Pairwise.filterMap _ ?_ (sortEntries_sorted es)
      intro a a' hle b hb b' hb'
      by_cases hig : shouldIgnore ctx root (rel ++ [a.name]) a.name a.isDir = true
      · simp [hig] at hb
      · by_cases hig' : shouldIgnore ctx root (rel ++ [a'.name]) a'.name a'.isDir = true
        · simp [hig'] at hb'
        · simp only [hig, hig'] at hb hb'
          simp only [Bool.false_eq_true, if_false, Option.mem_def,
            Option.some.injEq] at hb hb'
          subst hb
          subst hb'
          cases a <;> cases a' <;> exact hle
  · intro hp hk
    cases fuel with
    | zero => rfl
    | succ f => simp only [scanL, sortEntries_eq_of_perm es es' hp hk]

/-- C8 witness at two concrete distinct-keyed enumerations. -/
theorem C8_children_sorted_deterministic_witness :
    (scanL (ctxOfScan emptyConfig []) "r" 3 []
      [.file "b" [], .file "a" []]).Pairwise nodeLE
    ∧ scanL (ctxOfScan emptyConfig []) "r" 3 [] [.file "b" [], .file "a" []] =
        scanL (ctxOfScan emptyConfig []) "r" 3 [] [.file "a" [], .file "b" []] := by
  have h := C8_children_sorted_deterministic (ctxOfScan emptyConfig []) "r" 3 []
    [.file "b" [], .file "a" []] [.file "a" [], .file "b" []]
  exact ⟨h.1, h.2 (List.Perm.swap _ _ _) (by unfold keysDistinct; decide)⟩

/-! ### Path and size lemmas for the round-trip proof -/

/-- Stripping a prefix from itself extended. -/
lemma pathRest_append : ∀ (pfx q : List String), pathRest pfx (pfx ++ q) = some q
  | [], _ => rfl
  | a :: as, q => by simp [pathRest, pathRest_append as q]

/-- A successful strip recovers the path. -/
lemma pathRest_eq : ∀ (pfx p q : List String), pathRest pfx p = some q → p = pfx ++ q
  | [], p, q, h => by simpa [pathRest] using Option.some.inj h
  | a :: as, [], q, h => by simp [pathRest] at h
  | a :: as, b :: bs, q, h => by
    by_cases hab : a = b
    · subst hab
      simpa using pathRest_eq as bs q (by simpa [pathRest] using h)
    · simp [pathRest, hab] at h

/-- A common prefix cancels on both sides of a strip. -/
lemma pathRest_append_left : ∀ (pfx l1 l2 : List String),
    pathRest (pfx ++ l1) (pfx ++ l2) = pathRest l1 l2
  | [], _, _ => rfl
  | a :: as, l1, l2 => by simp [pathRest, pathRest_append_left as l1 l2]

/-- Stripping a one-longer prefix, expressed through the shorter strip. -/
lemma pathRest_snoc_eq : ∀ (pfx : List String) (a : String) (p : List String),
    pathRest (pfx ++ [a]) p =
      (match pathRest pfx p with
       | some (b :: q) => if a = b then some q else none
       | _ => none)
  | [], a, [] => rfl
  | [], a, b :: bs => by simp [pathRest]
  | x :: xs, a, [] => rfl
  | x :: xs, a, b :: bs => by
    by_cases hxb : x = b
    · subst hxb
      simpa [pathRest] using pathRest_snoc_eq xs a bs
    · simp [pathRest, hxb]

/-- A path strictly below `x` is not a prefix-stripped form of `x`. -/
lemma pathRest_longer : ∀ (x l : List String), l ≠ [] → pathRest (x ++ l) x = none
  | x, l, h => by
    have := pathRest_append_left x l []
    simpa [List.append_nil, show pathRest l ([] : List String) = none by
      cases l with
      | nil => exact absurd rfl h
      | cons c cs => rfl] using this

/-- Tree sizes are positive. -/
lemma fsSizeE_pos : ∀ e : FSEntry, 1 ≤ fsSizeE e
  | .file _ _ => le_refl 1
  | .dir _ cs => by simp [fsSizeE]

/-- List sizes are positive. -/
lemma fsSizeL_pos : ∀ es : List FSEntry, 1 ≤ fsSizeL es
  | [] => le_refl 1
  | e :: es => by
    have := fsSizeE_pos e
    have := fsSizeL_pos es
    simp [fsSizeL, List.foldr_cons] at *
    omega

/-- The size of a cons. -/
lemma fsSizeL_cons (e : FSEntry) (es : List FSEntry) :
    fsSizeL (e :: es) = fsSizeE e + fsSizeL es := rfl

/-- The mutual and the list size agree on converted sibling lists. -/
lemma fsSizeF_toList : ∀ cs : FSList, fsSizeF cs = fsSizeL cs.toList
  | .nil => rfl
  | .cons e es => by
    simp [fsSizeF, FSList.toList, fsSizeL_cons, fsSizeF_toList es]

/-- A member's size is below the list size. -/
lemma fsSizeE_lt_of_mem : ∀ {e : FSEntry} {es : List FSEntry}, e ∈ es →
    fsSizeE e < fsSizeL es := by
  intro e es h
  induction es with
  | nil => cases h
  | cons x xs ih =>
    rcases List.mem_cons.mp h with h | h
    · subst h
      have := fsSizeL_pos xs
      rw [fsSizeL_cons]
      omega
    · have := ih h
      have := fsSizeE_pos x
      rw [fsSizeL_cons]
      omega

set_option maxRecDepth 4000 in
/-- A successful split yields a code point that encodes back onto the
bytes it consumed. -/
lemma utf8Split_spec : ∀ (l : List Nat) (c : Nat) (rest : List Nat),
    utf8Split l = some (c, rest) →
    ∃ enc, utf8EncodeChar c = some enc ∧ l = enc ++ rest ∧ enc ≠ [] := by
  intro l c rest h
  cases l with
  | nil => simp [utf8Split] at h
  | cons b bs =>
    unfold utf8Split at h
    repeat' split at h
    all_goals (try cases h)
    · -- one byte
      rename_i hlt heq
      refine ⟨[c], ?_, by rw [heq]; rfl, by simp⟩
      unfold utf8EncodeChar
      rw [if_pos hlt]
    · -- two bytes
      rename_i h1 h2 h3 bs0 b1 hcont heq
      rename_i b0
      have hb : 0x80 ≤ b1 ∧ b1 < 0xC0 := by
        simpa [isCont, decide_eq_true_eq] using hcont
      refine ⟨[b0, b1], ?_, by rw [heq]; rfl, by simp⟩
      unfold utf8EncodeChar
      rw [if_neg (by omega), if_pos (by omega)]
      have e1 : ((b0 - 0xC0) * 64 + (b1 - 0x80)) / 64 = b0 - 0xC0 := by omega
      have e2 : ((b0 - 0xC0) * 64 + (b1 - 0x80)) % 64 = b1 - 0x80 := by omega
      have f1 : 0xC0 + (b0 - 0xC0) = b0 := by omega
      have f2 : 0x80 + (b1 - 0x80) = b1 := by omega
      rw [e1, e2, f1, f2]
    · -- three bytes
      rename_i h1 h2 h3 h4 bs0 b1 b2 bs' heq hcont
      rename_i b0
      dsimp only at h
      split at h
      · cases h
        rename_i hguard
        have hb : (0x80 ≤ b1 ∧ b1 < 0xC0) ∧ 0x80 ≤ b2 ∧ b2 < 0xC0 := by
          simpa [isCont, Bool.and_eq_true, decide_eq_true_eq] using hcont
        have hg : 0x800 ≤ (b0 - 0xE0) * 4096 + (b1 - 0x80) * 64 + (b2 - 0x80)
            ∧ ((b0 - 0xE0) * 4096 + (b1 - 0x80) * 64 + (b2 - 0x80) < 0xD800
                ∨ 0xE000 ≤ (b0 - 0xE0) * 4096 + (b1 - 0x80) * 64 + (b2 - 0x80)) := by
          simpa [Bool.and_eq_true, decide_eq_true_eq] using hguard
        obtain ⟨hg1, hg2⟩ := hg
        refine ⟨[b0, b1, b2], ?_, by rw [heq]; rfl, by simp⟩
        unfold utf8EncodeChar
        rw [if_neg (by omega), if_neg (by omega), if_pos (by omega),
          if_neg (by
            simp only [Bool.and_eq_true, decide_eq_true_eq, not_and]
            rcases hg2 with hg2 | hg2 <;> omega)]
        have e1 : ((b0 - 0xE0) * 4096 + (b1 - 0x80) * 64 + (b2 - 0x80)) / 4096
            = b0 - 0xE0 := by omega
        have e2 : ((b0 - 0xE0) * 4096 + (b1 - 0x80) * 64 + (b2 - 0x80)) / 64 % 64
            = b1 - 0x80 := by omega
        have e3 : ((b0 - 0xE0) * 4096 + (b1 - 0x80) * 64 + (b2 - 0x80)) % 64
            = b2 - 0x80 := by omega
        have f1 : 0xE0 + (b0 - 0xE0) = b0 := by omega
        have f2 : 0x80 + (b1 - 0x80) = b1 := by omega
        have f3 : 0x80 + (b2 - 0x80) = b2 := by omega
        rw [e1, e2, e3, f1, f2, f3]
      · cases h
    · -- four bytes
      rename_i h1 h2 h3 h4 h5 bs0 b1 b2 b3 bs' heq hcont
      rename_i b0
      dsimp only at h
      split at h
      · cases h
        rename_i hguard
        have hb : ((0x80 ≤ b1 ∧ b1 < 0xC0) ∧ 0x80 ≤ b2 ∧ b2 < 0xC0)
            ∧ 0x80 ≤ b3 ∧ b3 < 0xC0 := by
          simpa [isCont, Bool.and_eq_true, decide_eq_true_eq] using hcont
        have hg : 0x10000 ≤ (b0 - 0xF0) * 0x40000 + (b1 - 0x80) * 4096
              + (b2 - 0x80) * 64 + (b3 - 0x80)
            ∧ (b0 - 0xF0) * 0x40000 + (b1 - 0x80) * 4096 + (b2 - 0x80) * 64
              + (b3 - 0x80) < 0x110000 := by
          simpa [Bool.and_eq_true, decide_eq_true_eq] using hguard
        refine ⟨[b0, b1, b2, b3], ?_, by rw [heq]; rfl, by simp⟩
        unfold utf8EncodeChar
        rw [if_neg (by omega), if_neg (by omega), if_neg (by omega), if_pos (by omega)]
        have e1 : ((b0 - 0xF0) * 0x40000 + (b1 - 0x80) * 4096 + (b2 - 0x80) * 64
            + (b3 - 0x80)) / 0x40000 = b0 - 0xF0 := by omega
        have e2 : ((b0 - 0xF0) * 0x40000 + (b1 - 0x80) * 4096 + (b2 - 0x80) * 64
            + (b3 - 0x80)) / 4096 % 64 = b1 - 0x80 := by omega
        have e3 : ((b0 - 0xF0) * 0x40000 + (b1 - 0x80) * 4096 + (b2 - 0x80) * 64
            + (b3 - 0x80)) / 64 % 64 = b2 - 0x80 := by omega
        have e4 : ((b0 - 0xF0) * 0x40000 + (b1 - 0x80) * 4096 + (b2 - 0x80) * 64
            + (b3 - 0x80)) % 64 = b3 - 0x80 := by omega
        have f1 : 0xF0 + (b0 - 0xF0) = b0 := by omega
        have f2 : 0x80 + (b1 - 0x80) = b1 := by omega
        have f3 : 0x80 + (b2 - 0x80) = b2 := by omega
        have f4 : 0x80 + (b3 - 0x80) = b3 := by omega
        rw [e1, e2, e3, e4, f1, f2, f3, f4]
      · cases h

/-- Decoding inverts to the original bytes under encoding, at any budget. -/
lemma utf8DecodeF_encode : ∀ (fuel : Nat) (l cs : List Nat),
    utf8DecodeF fuel l = some cs → utf8Encode cs = some l := by
  intro fuel
  induction fuel with
  | zero =>
    intro l cs h
    cases l with
    | nil =>
      simp only [utf8DecodeF] at h
      cases h
      rfl
    | cons b bs => simp [utf8DecodeF] at h
  | succ f ih =>
    intro l cs h
    cases l with
    | nil =>
      simp only [utf8DecodeF] at h
      cases h
      rfl
    | cons b bs =>
      unfold utf8DecodeF at h
      rcases hsp : utf8Split (b :: bs) with _ | ⟨c0, rest⟩
      · rw [hsp] at h; cases h
      · rw [hsp] at h
        have h' : Option.map (fun x => c0 :: x) (utf8DecodeF f rest) = some cs := h
        rcases hdec : utf8DecodeF f rest with _ | cs'
        · rw [hdec] at h'; cases h'
        · rw [hdec] at h'
          simp only [Option.map_some'] at h'
          cases h'
          obtain ⟨enc, henc, hsplit, -⟩ := utf8Split_spec (b :: bs) c0 rest hsp
          simp only [utf8Encode, henc, ih rest cs' hdec]
          rw [hsplit]

/-- Decoding inverts to the original bytes under encoding. -/
lemma utf8_encode_decode (bs cs : List Nat) (h : utf8Decode bs = some cs) :
    utf8Encode cs = some bs :=
  utf8DecodeF_encode bs.length bs cs h

/-- A carriage return in the decoded text comes from one in the bytes. -/
lemma utf8Encode_mem13 : ∀ (cs bs : List Nat), utf8Encode cs = some bs →
    13 ∈ cs → 13 ∈ bs := by
  intro cs
  induction cs with
  | nil => intro bs _ h13; cases h13
  | cons c cs' ih =>
    intro bs h h13
    unfold utf8Encode at h
    rcases h1 : utf8EncodeChar c with _ | enc
    · rw [h1] at h; cases h
    · rw [h1] at h
      rcases h2 : utf8Encode cs' with _ | r
      · rw [h2] at h; cases h
      · rw [h2] at h
        cases h
        rcases List.mem_cons.mp h13 with h13 | h13
        · subst h13
          have : enc = [13] := by
            unfold utf8EncodeChar at h1
            rw [if_pos (by omega)] at h1
            exact (Option.some.inj h1).symm
          subst this
          simp
        · exact List.mem_append.mpr (Or.inr (ih r h2 h13))

/-- Universal-newlines translation is the identity on carriage-return-free
text. -/
lemma universalNewlines_id : ∀ cs : List Nat, (∀ x ∈ cs, x ≠ 13) →
    universalNewlines cs = cs := by
  intro cs
  induction cs using universalNewlines.induct with
  | case1 rest => intro h; exact absurd rfl (h 13 (by simp))
  | case2 rest hne => intro h; exact absurd rfl (h 13 (by simp))
  | case3 c rest h1 h2 ih =>
    intro h
    unfold universalNewlines
    split
    · rename_i rest' heq
      injection heq with hc _
      exact absurd hc (h c (by simp))
    · rename_i rest' hne heq
      injection heq with hc _
      exact absurd hc (h c (by simp))
    · rename_i c' rest' hg1 hg2 heq
      injection heq with hc hrest
      subst hc
      subst hrest
      rw [ih (fun x hx => h x (List.mem_cons_of_mem _ hx))]
    · rename_i heq
      cases heq
  | case4 => intro _; rfl

/-- A clean text file (bytes below 256, no carriage returns, extension not
known-binary) is captured as a text block whose declared encoding writes
the original bytes back. -/
lemma goodFile_roundtrip (name : String) (bytes : List Nat)
    (hbin : isBinaryFileP name = false)
    (hbytes : bytes.all (fun b => decide (b < 256) && b != 13) = true) :
    ∃ enc data, getFileContents name bytes = .text enc data
      ∧ encodeText enc data = some bytes := by
  have hlt : ∀ b ∈ bytes, b < 256 := by
    intro b hb
    have := List.all_eq_true.mp hbytes b hb
    simp only [Bool.and_eq_true, decide_eq_true_eq] at this
    exact this.1
  have hcr : ∀ b ∈ bytes, b ≠ 13 := by
    intro b hb
    have := List.all_eq_true.mp hbytes b hb
    simp only [Bool.and_eq_true, bne_iff_ne, decide_eq_true_eq] at this
    exact this.2
  unfold getFileContents
  rw [hbin]
  simp only [Bool.false_eq_true, if_false]
  rcases hdec : utf8Decode bytes with _ | cs
  · have hall : bytes.all (· < 256) = true := by
      simp only [List.all_eq_true, decide_eq_true_eq]
      exact hlt
    rw [tryFallbacks_latin1 bytes hall]
    refine ⟨"latin-1", universalNewlines bytes, rfl, ?_⟩
    rw [universalNewlines_id bytes hcr]
    show (if bytes.all (· < 256) then some bytes else none) = some bytes
    rw [hall]
    rfl
  · refine ⟨"utf-8", universalNewlines cs, rfl, ?_⟩
    have henc := utf8_encode_decode bytes cs hdec
    have hcr' : ∀ x ∈ cs, x ≠ 13 := by
      intro x hx he
      subst he
      exact hcr 13 (utf8Encode_mem13 cs bytes henc hx) rfl
    rw [universalNewlines_id cs hcr']
    exact henc

/-- Strip of a whole path is the empty remainder. -/
lemma pathRest_some_nil (x p : List String) : pathRest x p = some [] ↔ p = x := by
  constructor
  · intro h
    simpa using pathRest_eq x p [] h
  · intro h
    rw [h]
    simpa using pathRest_append x []

/-- Looking up the head entry by its own name. -/
lemma findEntry_cons_self (e : FSEntry) (rest : List FSEntry) :
    findEntry (e :: rest) e.name = some e := by
  simp [findEntry, List.find?_cons]

/-- Looking up a different name skips the head entry. -/
lemma findEntry_cons_ne (e : FSEntry) (rest : List FSEntry) (n : String)
    (h : n ≠ e.name) : findEntry (e :: rest) n = findEntry rest n := by
  have : (e.name.data == n.data) = false := by
    simp only [beq_eq_false_iff_ne, ne_eq]
    intro he
    exact h (String.ext he).symm
  simp [findEntry, List.find?_cons, this]

/-- A name carried by no entry looks up to nothing. -/
lemma findEntry_none (es : List FSEntry) (n : String)
    (h : ∀ e ∈ es, e.name ≠ n) : findEntry es n = none := by
  induction es with
  | nil => rfl
  | cons e rest ih =>
    rw [findEntry_cons_ne e rest n (fun he => h e (by simp) he.symm)]
    exact ih (fun x hx => h x (by simp [hx]))

/-- `findFileL` looks at the head component through `findEntry`. -/
lemma findFileL_cons_eq (es : List FSEntry) (n : String) (q : List String) :
    findFileL es (n :: q) =
      (match findEntry es n with
       | some (.file _ bs) => if q.isEmpty then some bs else none
       | some (.dir _ cs) => if q.isEmpty then none else findFileL cs.toList q
       | none => none) := rfl

/-- `findDirL` looks at the head component through `findEntry`. -/
lemma findDirL_cons_eq (es : List FSEntry) (n : String) (q : List String) :
    findDirL es (n :: q) =
      (match findEntry es n with
       | some (.dir _ cs) => q.isEmpty || findDirL cs.toList q
       | _ => false) := rfl

/-- Overlaying no entries changes nothing. -/
lemma overlayFile_nil (pfx : List String) (old : List String → Option (List Nat))
    (p : List String) : overlayFile [] pfx old p = old p := by
  unfold overlayFile
  rcases h : pathRest pfx p with _ | ⟨_ | ⟨n, q⟩⟩ <;> simp [findEntry]

/-- Overlaying no entries changes nothing. -/
lemma overlayDir_nil (pfx : List String) (old : List String → Bool)
    (p : List String) : overlayDir [] pfx old p = old p := by
  unfold overlayDir
  rcases h : pathRest pfx p with _ | ⟨_ | ⟨n, q⟩⟩ <;> simp [findEntry]

/-- Creating a directory at a fresh path only turns on the path and its
ancestors in the directory predicate. -/
lemma createDirectory_fresh (ov : Bool) (st : ExtractState) (path : List String)
    (hf : st.fileAt path = none) (hd : st.dirAt path = false) :
    (createDirectory ov st path).fileAt = st.fileAt
    ∧ ∀ q, (createDirectory ov st path).dirAt q
        = (st.dirAt q || (pathRest q path).isSome) := by
  unfold createDirectory
  rw [hf, hd]
  simp

/-- Writing a text block onto a fresh path. -/
lemma extractFile_text_fresh (ov : Bool) (enc : String) (data bytes : List Nat)
    (path : List String) (st : ExtractState)
    (henc : encodeText enc data = some bytes)
    (hf : st.fileAt path = none) (hd : st.dirAt path = false) :
    extractFile ov (some (.text enc data)) path st
      = incFiles (writeFileAt st path bytes) := by
  simp [extractFile, hf, hd, henc]

/-- Strips against a one-longer target succeed only by reaching the target
or stopping short within the shorter one. -/
lemma pathRest_target_snoc : ∀ (p pfx : List String) (a : String),
    (pathRest p (pfx ++ [a])).isSome = true →
    (pathRest p pfx).isSome = true ∨ p = pfx ++ [a] := by
  intro p
  induction p with
  | nil => intro pfx a _; left; rfl
  | cons x xs ih =>
    intro pfx a h
    cases pfx with
    | nil =>
      simp only [List.nil_append] at h ⊢
      rw [pathRest] at h
      by_cases hxa : x = a
      · subst hxa
        rw [if_pos rfl] at h
        cases xs with
        | nil => right; rfl
        | cons y ys => simp [pathRest] at h
      · rw [if_neg hxa] at h
        simp at h
    | cons b bs =>
      simp only [List.cons_append] at h ⊢
      rw [pathRest] at h ⊢
      by_cases hxb : x = b
      · subst hxb
        rw [if_pos rfl] at h ⊢
        rcases ih bs a h with h' | h'
        · exact Or.inl h'
        · right; rw [h']
      · rw [if_neg hxb] at h
        simp at h

/-- A failed strip also fails against any one-longer prefix. -/
lemma pathRest_none_snoc (pfx p : List String) (a : String)
    (h : pathRest pfx p = none) : pathRest (pfx ++ [a]) p = none := by
  rw [pathRest_snoc_eq, h]

/-- With duplicate-free names, lookup is invariant under permutation. -/
lemma findEntry_perm (es₁ es₂ : List FSEntry) (hp : es₁.Perm es₂)
    (hn : (es₂.map FSEntry.name).Nodup) (n : String) :
    findEntry es₁ n = findEntry es₂ n := by
  rcases h₁ : findEntry es₁ n with _ | e₁ <;> rcases h₂ : findEntry es₂ n with _ | e₂
  · rfl
  · exfalso
    have hmem := List.mem_of_find?_eq_some h₂
    have hpred := List.find?_some h₂
    have hs : (findEntry es₁ n).isSome = true := by
      unfold findEntry
      rw [List.find?_isSome]
      exact ⟨e₂, hp.mem_iff.mpr hmem, hpred⟩
    rw [h₁] at hs
    cases hs
  · exfalso
    have hmem := List.mem_of_find?_eq_some h₁
    have hpred := List.find?_some h₁
    have hs : (findEntry es₂ n).isSome = true := by
      unfold findEntry
      rw [List.find?_isSome]
      exact ⟨e₁, hp.mem_iff.mp hmem, hpred⟩
    rw [h₂] at hs
    cases hs
  · have hm₁ : e₁ ∈ es₂ := hp.mem_iff.mp (List.mem_of_find?_eq_some h₁)
    have hm₂ : e₂ ∈ es₂ := List.mem_of_find?_eq_some h₂
    have hp₁ := List.find?_some h₁
    have hp₂ := List.find?_some h₂
    have hname : e₁.name = e₂.name := by
      have ha : e₁.name.data = n.data := by simpa using hp₁
      have hb : e₂.name.data = n.data := by simpa using hp₂
      exact String.ext (ha.trans hb.symm)
    rw [List.inj_on_of_nodup_map hn hm₁ hm₂ hname]

set_option maxHeartbeats 1000000 in
/-- Extracting the scanned children of a directory into a destination
where the corresponding subtrees are absent and the ancestor directories
exist reproduces exactly the tree's files and directories below the
prefix, leaving everything else untouched. -/
theorem walkSpec : ∀ (N : Nat) (es : List FSEntry), fsSizeL es ≤ N →
    ∀ (ctx : IgnoreCtx) (root : String) (rel pfx : List String) (ov : Bool)
      (st : ExtractState) (gN fuelS fuelX : Nat),
    goodTreeF ctx root gN rel es = true →
    fsSizeL es + 1 ≤ fuelS → fsSizeL es + 1 ≤ fuelX →
    (∀ q, (pathRest q pfx).isSome = true → st.dirAt q = true) →
    (∀ e ∈ es, ∀ q, st.fileAt (pfx ++ e.name :: q) = none
        ∧ st.dirAt (pfx ++ e.name :: q) = false) →
    (∀ p, ((scanL ctx root fuelS rel es).foldl
        (fun s c => extractNodeF ov fuelX c (pfx ++ [nodeName c]) s) st).fileAt p
        = overlayFile es pfx st.fileAt p)
    ∧ (∀ p, ((scanL ctx root fuelS rel es).foldl
        (fun s c => extractNodeF ov fuelX c (pfx ++ [nodeName c]) s) st).dirAt p
        = overlayDir es pfx st.dirAt p) := by
  intro N
  induction N using Nat.strong_induction_on with
  | _ N IH =>
  intro es hsize ctx root rel pfx ov st gN fuelS fuelX hgood hfS hfX hanc hfresh
  have h1 : 1 ≤ fsSizeL es := fsSizeL_pos es
  obtain ⟨fS, rfl⟩ : ∃ fS, fuelS = fS + 1 := ⟨fuelS - 1, by omega⟩
  obtain ⟨fX, rfl⟩ : ∃ fX, fuelX = fX + 1 := ⟨fuelX - 1, by omega⟩
  cases gN with
  | zero =>
    have hnil : es = [] := by
      cases es with
      | nil => rfl
      | cons e es' => simp [goodTreeF] at hgood
    subst hnil
    constructor <;> intro p <;>
      simp [scanL, sortEntries, List.insertionSort, overlayFile_nil, overlayDir_nil]
  | succ g =>
  have hgood' : decide ((es.map FSEntry.name).Nodup) = true
      ∧ ∀ e ∈ es, goodEntryF ctx root g rel e = true := by
    have he : goodTreeF ctx root (g+1) rel es
        = (decide ((es.map FSEntry.name).Nodup)
            && es.all (goodEntryF ctx root g rel)) := rfl
    rw [he] at hgood
    simpa only [Bool.and_eq_true, List.all_eq_true] using hgood
  obtain ⟨hnodupD, hallgood⟩ := hgood'
  have hnodup : (es.map FSEntry.name).Nodup := of_decide_eq_true hnodupD
  have hscan : scanL ctx root (fS + 1) rel es = (sortEntries es).filterMap
      (fun e => if shouldIgnore ctx root (rel ++ [e.name]) e.name e.isDir then none
        else some (match e with
          | .file name bytes => getFileInfo ctx.config name bytes
          | .dir name cs =>
            Node.dirNode name (scanL ctx root fS (rel ++ [name]) cs.toList))) := rfl
  rw [hscan]
  have hperm : (sortEntries es).Perm es := sortEntries_perm es
  have hmem0 : ∀ e ∈ sortEntries es, e ∈ es := fun e he => hperm.mem_iff.mp he
  have hnodup0 : ((sortEntries es).map FSEntry.name).Nodup :=
    ((hperm.map FSEntry.name).nodup_iff).mpr hnodup
  -- the inner fold over any sub-enumeration of the entries
  have inner : ∀ (l : List FSEntry), (∀ e ∈ l, e ∈ es) →
      (l.map FSEntry.name).Nodup →
      ∀ st', (∀ q, (pathRest q pfx).isSome = true → st'.dirAt q = true) →
      (∀ e ∈ l, ∀ q, st'.fileAt (pfx ++ e.name :: q) = none
          ∧ st'.dirAt (pfx ++ e.name :: q) = false) →
      (∀ p, ((l.filterMap
          (fun e => if shouldIgnore ctx root (rel ++ [e.name]) e.name e.isDir then none
            else some (match e with
              | .file name bytes => getFileInfo ctx.config name bytes
              | .dir name cs =>
                Node.dirNode name (scanL ctx root fS (rel ++ [name]) cs.toList)))).foldl
          (fun s c => extractNodeF ov (fX + 1) c (pfx ++ [nodeName c]) s) st').fileAt p
          = overlayFile l pfx st'.fileAt p)
      ∧ (∀ p, ((l.filterMap
          (fun e => if shouldIgnore ctx root (rel ++ [e.name]) e.name e.isDir then none
            else some (match e with
              | .file name bytes => getFileInfo ctx.config name bytes
              | .dir name cs =>
                Node.dirNode name (scanL ctx root fS (rel ++ [name]) cs.toList)))).foldl
          (fun s c => extractNodeF ov (fX + 1) c (pfx ++ [nodeName c]) s) st').dirAt p
          = overlayDir l pfx st'.dirAt p) := by
    intro l
    induction l with
    | nil =>
      intro _ _ st' hanc' hfresh'
      constructor <;> intro p <;>
        simp [overlayFile_nil, overlayDir_nil]
    | cons e rest ihl =>
      intro hsub hnodup' st' hanc' hfresh'
      have hin : e ∈ es := hsub e (by simp)
      have hge := hallgood e hin
      unfold goodEntryF at hge
      simp only [Bool.and_eq_true, Bool.not_eq_true'] at hge
      obtain ⟨hig, hcontent⟩ := hge
      have hnamnot : ∀ e' ∈ rest, e'.name ≠ e.name := by
        intro e' he' heq
        have : e.name ∉ rest.map FSEntry.name := by
          have := hnodup'
          simp only [List.map_cons, List.nodup_cons] at this
          exact this.1
        exact this (heq ▸ List.mem_map_of_mem FSEntry.name he')
      have hsubr : ∀ e' ∈ rest, e' ∈ es :=
        fun e' he' => hsub e' (List.mem_cons_of_mem _ he')
      have hnodupr : (rest.map FSEntry.name).Nodup := by
        simp only [List.map_cons, List.nodup_cons] at hnodup'
        exact hnodup'.2
      cases e with
      | file name bytes =>
        simp only [FSEntry.name, FSEntry.isDir] at hig hcontent
        have hnamnot' : ∀ e' ∈ rest, e'.name ≠ name := hnamnot
        simp only [Bool.and_eq_true, Bool.not_eq_true'] at hcontent
        obtain ⟨⟨hb, hcap⟩, hbin⟩ := hcontent
        obtain ⟨enc, data, hgc, henc⟩ := goodFile_roundtrip name bytes hbin hb
        have hff := hfresh' (FSEntry.file name bytes) (List.mem_cons_self _ _)
        simp only [FSEntry.name] at hff
        obtain ⟨hf1, hd1⟩ := hff []
        have hnode : getFileInfo ctx.config name bytes
            = Node.fileNode name bytes.length
                (if suffixOf name = "" then none else some (lowerStr (suffixOf name)))
                (some (ContentBlock.text enc data)) := by
          simp [getFileInfo, hcap, hgc]
        have hlist : (FSEntry.file name bytes :: rest).filterMap
            (fun e => if shouldIgnore ctx root (rel ++ [e.name]) e.name e.isDir then none
              else some (match e with
                | FSEntry.file name bytes => getFileInfo ctx.config name bytes
                | FSEntry.dir name cs =>
                  Node.dirNode name (scanL ctx root fS (rel ++ [name]) cs.toList)))
            = getFileInfo ctx.config name bytes :: rest.filterMap
            (fun e => if shouldIgnore ctx root (rel ++ [e.name]) e.name e.isDir then none
              else some (match e with
                | FSEntry.file name bytes => getFileInfo ctx.config name bytes
                | FSEntry.dir name cs =>
                  Node.dirNode name (scanL ctx root fS (rel ++ [name]) cs.toList))) := by
          simp only [List.filterMap_cons, FSEntry.name, FSEntry.isDir, hig,
            Bool.false_eq_true, if_false]
        have hstep : extractNodeF ov (fX + 1)
            (Node.fileNode name bytes.length
              (if suffixOf name = "" then none else some (lowerStr (suffixOf name)))
              (some (ContentBlock.text enc data)))
            (pfx ++ [nodeName (Node.fileNode name bytes.length
              (if suffixOf name = "" then none else some (lowerStr (suffixOf name)))
              (some (ContentBlock.text enc data)))]) st'
            = incFiles (writeFileAt st' (pfx ++ [name]) bytes) :=
          extractFile_text_fresh ov enc data bytes (pfx ++ [name]) st' henc hf1 hd1
        have hfold : List.foldl (fun s c => extractNodeF ov (fX + 1) c (pfx ++ [nodeName c]) s)
              st' ((FSEntry.file name bytes :: rest).filterMap
            (fun e => if shouldIgnore ctx root (rel ++ [e.name]) e.name e.isDir then none
              else some (match e with
                | FSEntry.file name bytes => getFileInfo ctx.config name bytes
                | FSEntry.dir name cs =>
                  Node.dirNode name (scanL ctx root fS (rel ++ [name]) cs.toList))))
            = List.foldl (fun s c => extractNodeF ov (fX + 1) c (pfx ++ [nodeName c]) s)
              (incFiles (writeFileAt st' (pfx ++ [name]) bytes)) (rest.filterMap
            (fun e => if shouldIgnore ctx root (rel ++ [e.name]) e.name e.isDir then none
              else some (match e with
                | FSEntry.file name bytes => getFileInfo ctx.config name bytes
                | FSEntry.dir name cs =>
                  Node.dirNode name (scanL ctx root fS (rel ++ [name]) cs.toList)))) := by
          rw [hlist, hnode, List.foldl_cons, hstep]
        rw [hfold]
        have hfr : ∀ e' ∈ rest, ∀ q,
            (incFiles (writeFileAt st' (pfx ++ [name]) bytes)).fileAt
              (pfx ++ e'.name :: q) = none
            ∧ (incFiles (writeFileAt st' (pfx ++ [name]) bytes)).dirAt
              (pfx ++ e'.name :: q) = false := by
          intro e' he' q
          obtain ⟨h01, h02⟩ := hfresh' e' (List.mem_cons_of_mem _ he') q
          refine ⟨?_, h02⟩
          have hne2 : ¬(pfx ++ e'.name :: q = pfx ++ [name]) := by
            intro hc
            injection List.append_cancel_left hc with h1 h2
            exact hnamnot' e' he' h1
          show (if pfx ++ e'.name :: q = pfx ++ [name] then some bytes
              else st'.fileAt (pfx ++ e'.name :: q)) = none
          rw [if_neg hne2]
          exact h01
        obtain ⟨ihf, ihd⟩ := ihl hsubr hnodupr
          (incFiles (writeFileAt st' (pfx ++ [name]) bytes))
          (fun q hq => hanc' q hq) hfr
        have hfr0 : findEntry rest name = none := findEntry_none rest name hnamnot'
        have hfe : findEntry (FSEntry.file name bytes :: rest) name
            = some (FSEntry.file name bytes) := findEntry_cons_self _ _
        refine ⟨fun p => ?_, fun p => ?_⟩
        · rw [ihf p]
          unfold overlayFile
          rcases hp : pathRest pfx p with _ | ⟨_ | ⟨n, q⟩⟩
          · simp only [hp]
            have hne : p ≠ pfx ++ [name] := by
              intro hc
              rw [hc, pathRest_append] at hp
              simp at hp
            show (if p = pfx ++ [name] then some bytes else st'.fileAt p) = st'.fileAt p
            rw [if_neg hne]
          · simp only [hp]
            have hne : p ≠ pfx ++ [name] := by
              intro hc
              rw [hc, pathRest_append] at hp
              simp at hp
            show (if p = pfx ++ [name] then some bytes else st'.fileAt p) = st'.fileAt p
            rw [if_neg hne]
          · simp only [hp]
            by_cases hn : n = name
            · subst n
              rw [hfr0, hfe]
              simp only [Option.isSome_none, Bool.false_eq_true, if_false,
                Option.isSome_some, if_true]
              rw [findFileL_cons_eq, hfe]
              have hpe := pathRest_eq _ _ _ hp
              cases q with
              | nil =>
                show (if p = pfx ++ [name] then some bytes else st'.fileAt p) = _
                rw [if_pos hpe]
                rfl
              | cons n' q' =>
                have hne : p ≠ pfx ++ [name] := by
                  intro hc
                  rw [hpe] at hc
                  injection List.append_cancel_left hc with h1 h2
                  cases h2
                show (if p = pfx ++ [name] then some bytes else st'.fileAt p) = _
                rw [if_neg hne, hpe, (hff (n' :: q')).1]
                rfl

            · have hne := findEntry_cons_ne (FSEntry.file name bytes) rest n hn
              rw [hne]
              rcases hfe2 : findEntry rest n with _ | e₂
              · simp only [hfe2, Option.isSome_none, Bool.false_eq_true, if_false]
                have hpe := pathRest_eq _ _ _ hp
                have hne2 : p ≠ pfx ++ [name] := by
                  intro hc
                  rw [hpe] at hc
                  injection List.append_cancel_left hc with h1 h2
                  exact hn h1
                show (if p = pfx ++ [name] then some bytes else st'.fileAt p)
                    = st'.fileAt p
                rw [if_neg hne2]
              · simp only [hfe2, Option.isSome_some, if_true]
                rw [findFileL_cons_eq, findFileL_cons_eq, hne]
        · rw [ihd p]
          unfold overlayDir
          rcases hp : pathRest pfx p with _ | ⟨_ | ⟨n, q⟩⟩
          · simp only [hp]
            rfl
          · simp only [hp]
            rfl
          · simp only [hp]
            by_cases hn : n = name
            · subst n
              rw [hfr0, hfe]
              simp only [Option.isSome_none, Bool.false_eq_true, if_false,
                Option.isSome_some, if_true]
              rw [findDirL_cons_eq, hfe]
              have hpe := pathRest_eq _ _ _ hp
              show st'.dirAt p = _
              rw [hpe, (hff q).2]
            · have hne := findEntry_cons_ne (FSEntry.file name bytes) rest n hn
              rw [hne]
              rcases hfe2 : findEntry rest n with _ | e₂
              · simp only [hfe2, Option.isSome_none, Bool.false_eq_true, if_false]
                rfl
              · simp only [hfe2, Option.isSome_some, if_true]
                rw [findDirL_cons_eq, findDirL_cons_eq, hne]
      | dir name cs =>
        simp only [FSEntry.name, FSEntry.isDir] at hig
        have hnamnot' : ∀ e' ∈ rest, e'.name ≠ name := hnamnot
        have hcgood : goodTreeF ctx root g (rel ++ [name]) cs.toList = true := hcontent
        have hff := hfresh' (FSEntry.dir name cs) (List.mem_cons_self _ _)
        simp only [FSEntry.name] at hff
        obtain ⟨hf1, hd1⟩ := hff []
        obtain ⟨hcf, hcd⟩ := createDirectory_fresh ov st' (pfx ++ [name]) hf1 hd1
        have hszE : fsSizeE (FSEntry.dir name cs) = fsSizeL cs.toList + 1 := by
          show fsSizeF cs + 1 = _
          rw [fsSizeF_toList]
        have hlt : fsSizeE (FSEntry.dir name cs) < fsSizeL es := fsSizeE_lt_of_mem hin
        obtain ⟨hIHf, hIHd⟩ := IH (fsSizeL cs.toList) (by omega) cs.toList (le_refl _)
          ctx root (rel ++ [name]) (pfx ++ [name]) ov
          (createDirectory ov st' (pfx ++ [name])) g fS fX hcgood (by omega) (by omega)
          (fun q hq => by rw [hcd q, hq]; simp)
          (by
            intro e' he' q
            constructor
            · rw [hcf]
              have h2 : (pfx ++ [name]) ++ e'.name :: q = pfx ++ name :: (e'.name :: q) := by
                simp
              rw [h2]
              exact (hff (e'.name :: q)).1
            · rw [hcd, pathRest_longer _ _ (by simp)]
              have h2 : (pfx ++ [name]) ++ e'.name :: q = pfx ++ name :: (e'.name :: q) := by
                simp
              rw [h2, (hff (e'.name :: q)).2]
              rfl)
        have hlist : (FSEntry.dir name cs :: rest).filterMap
            (fun e => if shouldIgnore ctx root (rel ++ [e.name]) e.name e.isDir then none
              else some (match e with
                | FSEntry.file name bytes => getFileInfo ctx.config name bytes
                | FSEntry.dir name cs =>
                  Node.dirNode name (scanL ctx root fS (rel ++ [name]) cs.toList)))
            = Node.dirNode name (scanL ctx root fS (rel ++ [name]) cs.toList) :: rest.filterMap
            (fun e => if shouldIgnore ctx root (rel ++ [e.name]) e.name e.isDir then none
              else some (match e with
                | FSEntry.file name bytes => getFileInfo ctx.config name bytes
                | FSEntry.dir name cs =>
                  Node.dirNode name (scanL ctx root fS (rel ++ [name]) cs.toList))) := by
          simp only [List.filterMap_cons, FSEntry.name, FSEntry.isDir, hig,
            Bool.false_eq_true, if_false]
        have hstep : extractNodeF ov (fX + 1)
            (Node.dirNode name (scanL ctx root fS (rel ++ [name]) cs.toList))
            (pfx ++ [nodeName (Node.dirNode name (scanL ctx root fS (rel ++ [name]) cs.toList))])
            st'
            = (List.foldl (fun s c => extractNodeF ov fX c ((pfx ++ [name]) ++ [nodeName c]) s)
              (createDirectory ov st' (pfx ++ [name]))
              (scanL ctx root fS (rel ++ [name]) cs.toList)) := rfl
        have hfold : List.foldl (fun s c => extractNodeF ov (fX + 1) c (pfx ++ [nodeName c]) s)
              st' ((FSEntry.dir name cs :: rest).filterMap
            (fun e => if shouldIgnore ctx root (rel ++ [e.name]) e.name e.isDir then none
              else some (match e with
                | FSEntry.file name bytes => getFileInfo ctx.config name bytes
                | FSEntry.dir name cs =>
                  Node.dirNode name (scanL ctx root fS (rel ++ [name]) cs.toList))))
            = List.foldl (fun s c => extractNodeF ov (fX + 1) c (pfx ++ [nodeName c]) s)
              (List.foldl (fun s c => extractNodeF ov fX c ((pfx ++ [name]) ++ [nodeName c]) s)
              (createDirectory ov st' (pfx ++ [name]))
              (scanL ctx root fS (rel ++ [name]) cs.toList)) (rest.filterMap
            (fun e => if shouldIgnore ctx root (rel ++ [e.name]) e.name e.isDir then none
              else some (match e with
                | FSEntry.file name bytes => getFileInfo ctx.config name bytes
                | FSEntry.dir name cs =>
                  Node.dirNode name (scanL ctx root fS (rel ++ [name]) cs.toList)))) := by
          rw [hlist, List.foldl_cons, hstep]
        rw [hfold]
        have hanc2 : ∀ q, (pathRest q pfx).isSome = true →
            ((List.foldl (fun s c => extractNodeF ov fX c ((pfx ++ [name]) ++ [nodeName c]) s)
              (createDirectory ov st' (pfx ++ [name]))
              (scanL ctx root fS (rel ++ [name]) cs.toList))).dirAt q = true := by
          intro q hq
          rw [hIHd q]
          unfold overlayDir
          have hnone : pathRest (pfx ++ [name]) q = none := by
            rcases h2 : pathRest (pfx ++ [name]) q with _ | r
            · rfl
            · exfalso
              have hqe := pathRest_eq _ _ _ h2
              obtain ⟨r₂, hr₂⟩ := Option.isSome_iff_exists.mp hq
              have hpe2 := pathRest_eq _ _ _ hr₂
              rw [hqe] at hpe2
              have hlen := congrArg List.length hpe2
              simp [List.length_append] at hlen
          simp only [hnone]
          rw [hcd q, hanc' q hq]
          rfl
        have hfr2 : ∀ e' ∈ rest, ∀ q,
            ((List.foldl (fun s c => extractNodeF ov fX c ((pfx ++ [name]) ++ [nodeName c]) s)
              (createDirectory ov st' (pfx ++ [name]))
              (scanL ctx root fS (rel ++ [name]) cs.toList))).fileAt (pfx ++ e'.name :: q) = none
            ∧ ((List.foldl (fun s c => extractNodeF ov fX c ((pfx ++ [name]) ++ [nodeName c]) s)
              (createDirectory ov st' (pfx ++ [name]))
              (scanL ctx root fS (rel ++ [name]) cs.toList))).dirAt (pfx ++ e'.name :: q) = false := by
          intro e' he' q
          have hpr : pathRest (pfx ++ [name]) (pfx ++ e'.name :: q) = none := by
            rw [pathRest_snoc_eq, pathRest_append]
            show (if name = e'.name then some q else none) = none
            rw [if_neg (fun h => hnamnot' e' he' h.symm)]
          constructor
          · rw [hIHf (pfx ++ e'.name :: q)]
            unfold overlayFile
            simp only [hpr]
            rw [hcf]
            exact (hfresh' e' (List.mem_cons_of_mem _ he') q).1
          · rw [hIHd (pfx ++ e'.name :: q)]
            unfold overlayDir
            simp only [hpr]
            rw [hcd, (hfresh' e' (List.mem_cons_of_mem _ he') q).2]
            have h3 : pathRest (pfx ++ e'.name :: q) (pfx ++ [name]) = none := by
              rw [pathRest_append_left]
              show (if e'.name = name then pathRest q [] else none) = none
              rw [if_neg (hnamnot' e' he')]
            rw [h3]
            rfl
        obtain ⟨ihf, ihd⟩ := ihl hsubr hnodupr
          (List.foldl (fun s c => extractNodeF ov fX c ((pfx ++ [name]) ++ [nodeName c]) s)
              (createDirectory ov st' (pfx ++ [name]))
              (scanL ctx root fS (rel ++ [name]) cs.toList)) hanc2 hfr2
        have hfr0 : findEntry rest name = none := findEntry_none rest name hnamnot'
        have hfe : findEntry (FSEntry.dir name cs :: rest) name
            = some (FSEntry.dir name cs) := findEntry_cons_self _ _
        refine ⟨fun p => ?_, fun p => ?_⟩
        · rw [ihf p]
          unfold overlayFile
          rcases hp : pathRest pfx p with _ | ⟨_ | ⟨n, q⟩⟩
          · simp only [hp]
            rw [hIHf p]
            unfold overlayFile
            simp only [pathRest_none_snoc pfx p name hp]
            rw [hcf]
          · simp only [hp]
            rw [hIHf p]
            unfold overlayFile
            have hnone : pathRest (pfx ++ [name]) p = none := by
              rw [pathRest_snoc_eq, hp]
            simp only [hnone]
            rw [hcf]
          · simp only [hp]
            by_cases hn : n = name
            · subst n
              rw [hfr0, hfe]
              simp only [Option.isSome_none, Bool.false_eq_true, if_false,
                Option.isSome_some, if_true]
              rw [findFileL_cons_eq, hfe, hIHf p]
              unfold overlayFile
              have hpq : pathRest (pfx ++ [name]) p = some q := by
                rw [pathRest_snoc_eq, hp]
                show (if name = name then some q else none) = some q
                rw [if_pos rfl]
              have hpe := pathRest_eq _ _ _ hp
              cases q with
              | nil =>
                simp only [hpq]
                rw [hcf, hpe, hf1]
                rfl
              | cons n' q' =>
                simp only [hpq]
                rcases hfe2 : findEntry cs.toList n' with _ | e₂
                · simp only [hfe2, Option.isSome_none, Bool.false_eq_true, if_false]
                  rw [hcf, hpe, (hff (n' :: q')).1, findFileL_cons_eq, hfe2]
                  rfl
                · simp only [hfe2, Option.isSome_some, if_true]
                  rfl
            · have hne := findEntry_cons_ne (FSEntry.dir name cs) rest n hn
              rw [hne]
              rcases hfe2 : findEntry rest n with _ | e₂
              · simp only [hfe2, Option.isSome_none, Bool.false_eq_true, if_false]
                rw [hIHf p]
                unfold overlayFile
                have hnone : pathRest (pfx ++ [name]) p = none := by
                  rw [pathRest_snoc_eq, hp]
                  show (if name = n then some q else none) = none
                  rw [if_neg (fun h => hn h.symm)]
                simp only [hnone]
                rw [hcf]
              · simp only [hfe2, Option.isSome_some, if_true]
                rw [findFileL_cons_eq, findFileL_cons_eq, hne]
        · rw [ihd p]
          unfold overlayDir
          rcases hp : pathRest pfx p with _ | ⟨_ | ⟨n, q⟩⟩
          · simp only [hp]
            rw [hIHd p]
            unfold overlayDir
            simp only [pathRest_none_snoc pfx p name hp]
            rw [hcd p]
            cases hio : (pathRest p (pfx ++ [name])).isSome with
            | false =>
              rw [Bool.or_false]
            | true =>
              rcases pathRest_target_snoc p pfx name hio with hcase | hcase
              · rw [hanc' p hcase]
                rfl
              · exfalso
                rw [hcase, pathRest_append] at hp
                simp at hp
          · simp only [hp]
            rw [hIHd p]
            unfold overlayDir
            have hnone : pathRest (pfx ++ [name]) p = none := by
              rw [pathRest_snoc_eq, hp]
            simp only [hnone]
            rw [hcd p]
            have hpe : p = pfx := (pathRest_some_nil pfx p).mp hp
            have hdp : st'.dirAt p = true := by
              rw [hpe]
              exact hanc' pfx (by rw [(pathRest_some_nil pfx pfx).mpr rfl]; rfl)
            rw [hdp]
            rfl
          · simp only [hp]
            by_cases hn : n = name
            · subst n
              rw [hfr0, hfe]
              simp only [Option.isSome_none, Bool.false_eq_true, if_false,
                Option.isSome_some, if_true]
              rw [findDirL_cons_eq, hfe, hIHd p]
              unfold overlayDir
              have hpq : pathRest (pfx ++ [name]) p = some q := by
                rw [pathRest_snoc_eq, hp]
                show (if name = name then some q else none) = some q
                rw [if_pos rfl]
              have hpe := pathRest_eq _ _ _ hp
              cases q with
              | nil =>
                simp only [hpq]
                rw [hcd p, hpe, hd1,
                  (pathRest_some_nil (pfx ++ [name]) (pfx ++ [name])).mpr rfl]
                rfl
              | cons n' q' =>
                simp only [hpq]
                rcases hfe2 : findEntry cs.toList n' with _ | e₂
                · simp only [hfe2, Option.isSome_none, Bool.false_eq_true, if_false]
                  rw [hcd p, hpe, (hff (n' :: q')).2]
                  have hassoc : pfx ++ name :: n' :: q' = (pfx ++ [name]) ++ n' :: q' := by
                    simp
                  rw [hassoc, pathRest_longer _ _ (by simp), findDirL_cons_eq, hfe2]
                  rfl
                · simp only [hfe2, Option.isSome_some, if_true]
                  rfl
            · have hne := findEntry_cons_ne (FSEntry.dir name cs) rest n hn
              rw [hne]
              rcases hfe2 : findEntry rest n with _ | e₂
              · simp only [hfe2, Option.isSome_none, Bool.false_eq_true, if_false]
                rw [hIHd p]
                unfold overlayDir
                have hnone : pathRest (pfx ++ [name]) p = none := by
                  rw [pathRest_snoc_eq, hp]
                  show (if name = n then some q else none) = none
                  rw [if_neg (fun h => hn h.symm)]
                simp only [hnone]
                rw [hcd p]
                have hpe := pathRest_eq _ _ _ hp
                have h3 : pathRest p (pfx ++ [name]) = none := by
                  rw [hpe, pathRest_append_left]
                  show (if n = name then pathRest q [] else none) = none
                  rw [if_neg hn]
                rw [h3]
                simp
              · simp only [hfe2, Option.isSome_some, if_true]
                rw [findDirL_cons_eq, findDirL_cons_eq, hne]
  have hfresh0 : ∀ e ∈ sortEntries es, ∀ q,
      st.fileAt (pfx ++ e.name :: q) = none
      ∧ st.dirAt (pfx ++ e.name :: q) = false :=
    fun e he => hfresh e (hmem0 e he)
  obtain ⟨hf, hd⟩ := inner (sortEntries es) hmem0 hnodup0 st hanc hfresh0
  -- transport the overlays from the sorted enumeration back to the input
  have hfindeq : ∀ n, findEntry (sortEntries es) n = findEntry es n :=
    fun n => findEntry_perm (sortEntries es) es hperm hnodup n
  constructor
  · intro p
    rw [hf p]
    unfold overlayFile
    rcases hp : pathRest pfx p with _ | ⟨_ | ⟨n, q⟩⟩
    · simp only [hp]
    · simp only [hp]
    · simp only [hp, hfindeq n]
      rcases hfe : findEntry es n with _ | e'
      · simp [hfe]
      · simp only [hfe, Option.isSome_some, if_true]
        rw [findFileL_cons_eq, findFileL_cons_eq, hfindeq n]
  · intro p
    rw [hd p]
    unfold overlayDir
    rcases hp : pathRest pfx p with _ | ⟨_ | ⟨n, q⟩⟩
    · simp only [hp]
    · simp only [hp]
    · simp only [hp, hfindeq n]
      rcases hfe : findEntry es n with _ | e'
      · simp [hfe]
      · simp only [hfe, Option.isSome_some, if_true]
        rw [findDirL_cons_eq, findDirL_cons_eq, hfindeq n]

/-- The fold path written with an explicit empty prefix equals the plain one. -/
lemma extractStep_at_root (ov : Bool) (fuel : Nat) :
    (fun (s : ExtractState) (c : Node) => extractNodeF ov fuel c ([] ++ [nodeName c]) s)
    = (fun (s : ExtractState) (c : Node) => extractNodeF ov fuel c [nodeName c] s) := by
  funext s c
  rw [List.nil_append]

set_option maxHeartbeats 1000000 in
/-- C1 (amended): for a tree all of whose files are clean capturable text
files free of carriage-return bytes and with duplicate-free, un-ignored
sibling names, extracting the scanned document into a fresh destination
reproduces exactly the tree's relative paths, byte-identical file
contents and directory set (plus the destination root).  The original
claim fails for files containing CRLF/CR bytes, which Python's
universal-newlines text reads collapse to LF before capture. -/
theorem C1_roundtrip_amended (cfg : Config) (rootName : String) (cs : List FSEntry)
    (ov : Bool) (gN fuel : Nat)
    (hgood : goodTreeF (ctxOfScan cfg cs) rootName gN [] cs = true)
    (hfuel : fsSizeL cs + 1 ≤ fuel) :
    (∀ p, (extractDirectoryF ov fuel (nodeChildren (scanDirectory cfg rootName cs))
        emptyExtractState).fileAt p = findFileL cs p)
    ∧ ∀ p, (extractDirectoryF ov fuel (nodeChildren (scanDirectory cfg rootName cs))
        emptyExtractState).dirAt p = (decide (p = []) || findDirL cs p) := by
  have hw := walkSpec (fsSizeL cs) cs (le_refl _) (ctxOfScan cfg cs) rootName [] [] ov
      (createDirectory ov emptyExtractState []) gN (fsSizeL cs + 1) fuel hgood
      (le_refl _) hfuel (fun q hq => hq) (fun e he q => ⟨rfl, rfl⟩)
  rw [extractStep_at_root ov fuel] at hw
  obtain ⟨hwf, hwd⟩ := hw
  constructor
  · intro p
    refine Eq.trans ?_ (Eq.trans (hwf p) ?_)
    · rfl
    · unfold overlayFile
      cases p with
      | nil => rfl
      | cons n q =>
        show (if (findEntry cs n).isSome then findFileL cs (n :: q) else _)
            = findFileL cs (n :: q)
        rcases hfe : findEntry cs n with _ | e
        · simp only [hfe, Option.isSome_none, Bool.false_eq_true, if_false]
          rw [findFileL_cons_eq, hfe]
          rfl
        · simp only [hfe, Option.isSome_some, if_true]
  · intro p
    refine Eq.trans ?_ (Eq.trans (hwd p) ?_)
    · rfl
    · unfold overlayDir
      cases p with
      | nil => rfl
      | cons n q =>
        show (if (findEntry cs n).isSome then findDirL cs (n :: q) else _)
            = (decide (n :: q = []) || findDirL cs (n :: q))
        rcases hfe : findEntry cs n with _ | e
        · simp only [hfe, Option.isSome_none, Bool.false_eq_true, if_false]
          rw [findDirL_cons_eq, hfe]
          rfl
        · simp only [hfe, Option.isSome_some, if_true]
          rfl

/-- Witness for C1: a one-file tree round-trips exactly; its hypotheses
hold by evaluation. -/
theorem C1_roundtrip_amended_witness :
    goodTreeF (ctxOfScan emptyConfig [FSEntry.file "a.txt" [104, 105]]) "root" 1 []
        [FSEntry.file "a.txt" [104, 105]] = true
    ∧ ((∀ p, (extractDirectoryF false 3 (nodeChildren (scanDirectory emptyConfig "root"
          [FSEntry.file "a.txt" [104, 105]])) emptyExtractState).fileAt p
          = findFileL [FSEntry.file "a.txt" [104, 105]] p)
      ∧ ∀ p, (extractDirectoryF false 3 (nodeChildren (scanDirectory emptyConfig "root"
          [FSEntry.file "a.txt" [104, 105]])) emptyExtractState).dirAt p
          = (decide (p = []) || findDirL [FSEntry.file "a.txt" [104, 105]] p)) :=
  ⟨by decide,
   C1_roundtrip_amended emptyConfig "root" [FSEntry.file "a.txt" [104, 105]] false 1 3
     (by decide) (by decide)⟩

/-- C1 counterexample: a file whose bytes contain a CRLF pair is captured
through a universal-newlines text read and re-materialized with the pair
collapsed to a bare LF, so the extracted bytes differ from the original
tree's. -/
theorem C1_crlf_counterexample :
    (extractDirectoryF false 3
        (nodeChildren (scanDirectory emptyConfig "root"
          [FSEntry.file "a.txt" [97, 13, 10]]))
        emptyExtractState).fileAt ["a.txt"] = some [97, 10]
    ∧ findFileL [FSEntry.file "a.txt" [97, 13, 10]] ["a.txt"] = some [97, 13, 10] := by
  constructor
  · decide
  · decide
